import Mathlib

/-!
Verification of the Legal_Translator term-resolution pipeline.

This file gives a shallow embedding of the repository's core modules —
`keyword_extractor.py`, `local_cache.py` and `pipeline.py` — and proves (or
refutes) the frozen specification claims about them.

Conventions of the embedding:
* Python strings are Lean `String`s; all string operations are implemented
  over `String.data` (`List Char`) so that everything is executable and
  kernel-reducible.  Python `len` counts code points, as does `strLen`.
* Remote HTTP calls (`law_api.py`) are the I/O boundary: they are modelled
  as an `Env` of oracles indexed by a per-operation call counter, returning
  `Except String _` (an `Except.error` models a raised transport exception).
  The wall clock (`time.monotonic()`) is an oracle `Nat → Nat` consumed one
  reading per call, threaded through the state.
* The local JSONL cache rows are modelled after field-alias resolution
  (the `row.get("id") or row.get("법령용어ID")` chains of `local_cache.py`):
  a row carries the already-resolved string fields, `""` standing for a
  missing/falsy value.
* Numeric formatting inside warning strings is abstracted (the embedded
  warning text uses `toString` on a `Nat` budget where Python formats a
  float); no claim depends on the exact warning text.
-/

namespace LT

/-- Number of characters (code points) of a string, matching Python `len`. -/
def strLen (s : String) : Nat := s.data.length

/-- Python `t.endswith(suf)`. -/
def endsWithS (t suf : String) : Bool := suf.data.isSuffixOf t.data

/-- First index at which `sub` occurs as a contiguous sublist of the second
argument, if any. -/
def findSubIdx (sub : List Char) : List Char → Option Nat
  | [] => if sub.isEmpty then some 0 else none
  | c :: t =>
    if sub.isPrefixOf (c :: t) then some 0 else (findSubIdx sub t).map (· + 1)

/-- Python `sub in t` (substring containment). -/
def containsS (t sub : String) : Bool := (findSubIdx sub.data t.data).isSome

/-- Remove `suf.length` trailing characters from `t` (used after a verified
`endsWithS`). -/
def dropSuffixS (t suf : String) : String :=
  ⟨t.data.take (t.data.length - suf.data.length)⟩

/-- Whitespace characters recognised by Python `str.strip()` (the ASCII ones;
exotic Unicode whitespace does not occur in the modelled data). -/
def isPySpace (c : Char) : Bool :=
  c == ' ' || c == '\t' || c == '\n' || c == '\x0d' || c == '\x0b' || c == '\x0c'

/-- Python `s.strip()`. -/
def stripS (s : String) : String :=
  ⟨((s.data.dropWhile isPySpace).reverse.dropWhile isPySpace).reverse⟩

/-- Python slice `l[:n]` for an `Int` bound `n` (negative bounds count from
the end, clamped at zero). -/
def pySlice (l : List Char) (n : Int) : List Char :=
  if 0 ≤ n then l.take n.toNat else l.take (l.length - (-n).toNat)

/-- Python `s.split(d)[0]`: the prefix of `s` before the first occurrence of
`d` (the whole string when `d` does not occur). -/
def splitFirst (s d : String) : String :=
  match findSubIdx d.data s.data with
  | some i => ⟨s.data.take i⟩
  | none => s

/-! ## Keyword extractor (`keyword_extractor.py`)

The morphological-analysis tokenizer (`konlpy` Okt) is an optional external
dependency; the embedded `_tokenize` is the repository's fallback regex
strategy `_simple_tokens` (`re.findall(r"[가-힣]{2,}|[A-Za-z0-9]{2,}", text)`).
All downstream logic is independent of the tokenizer choice. -/

/-- A precomposed Hangul syllable, the `[가-힣]` character class. -/
def isHangulSyl (c : Char) : Bool := 0xAC00 ≤ c.toNat && c.toNat ≤ 0xD7A3

/-- The `[A-Za-z0-9]` character class. -/
def isAlnumAscii (c : Char) : Bool :=
  ('A' ≤ c && c ≤ 'Z') || ('a' ≤ c && c ≤ 'z') || ('0' ≤ c && c ≤ '9')

/-- Character class id: 1 for Hangul syllables, 2 for ASCII alphanumerics,
0 for everything else (a separator). -/
def charCls (c : Char) : Nat :=
  if isHangulSyl c then 1 else if isAlnumAscii c then 2 else 0

/-- Scanner for `_simple_tokens`: `cur` is the current same-class run,
reversed.  A run is emitted when it has length ≥ 2, matching the `{2,}`
quantifiers of the regex. -/
def tokensGo : List Char → List Char → List (List Char)
  | cur, [] => if 2 ≤ cur.length then [cur.reverse] else []
  | cur, c :: cs =>
    if charCls c = 0 then
      (if 2 ≤ cur.length then [cur.reverse] else []) ++ tokensGo [] cs
    else
      match cur with
      | [] => tokensGo [c] cs
      | d :: _ =>
        if charCls c = charCls d then tokensGo (c :: cur) cs
        else (if 2 ≤ cur.length then [cur.reverse] else []) ++ tokensGo [c] cs

/-- `_simple_tokens`: maximal runs of ≥ 2 Hangul syllables or ≥ 2 ASCII
alphanumerics. -/
def simple_tokens (text : String) : List String :=
  (tokensGo [] text.data).map fun l => ⟨l⟩

/-- `DEFAULT_STOPWORDS` of `keyword_extractor.py` (a Python set; only
membership is used). -/
def DEFAULT_STOPWORDS : List String :=
  ["그리고", "그러나", "하지만", "그래서", "그러면", "그런데", "하다", "되다", "이다",
   "있다", "없다", "않다", "알다", "같다", "같은", "거", "것", "정도", "부분", "때문",
   "관련", "대한", "이번", "이번에", "우리", "저희", "제가", "나는", "너무", "매우",
   "정말", "어떻게", "어디", "언제", "왜", "무엇", "뭐", "몇", "누가", "누구", "어느",
   "해야", "해야만", "해야지", "해야하나", "해야되나", "해야되나요", "하나요", "하냐",
   "하니", "하네", "했나요", "했는데", "했습니까", "됩니까", "되나요"]

/-- The alternatives of the `TRAILING_PARTICLES` regex
`(입니다|합니다|했다|...)$`.  Anchored at the end, the regex engine's
leftmost-match rule strips the longest alternative that is a suffix. -/
def TRAILING_PARTICLES : List String :=
  ["입니다", "합니다", "했다", "했음", "했어요", "했는데", "했지만", "하고", "하며",
   "하고", "이다", "였다", "하나요", "하냐", "하니", "하네", "되나요", "됩니까"]

/-- Longest element of `ps` that is a suffix of `t`. -/
def longestSuffixIn (t : String) (ps : List String) : Option String :=
  ps.foldl
    (fun acc p =>
      if endsWithS t p then
        match acc with
        | none => some p
        | some q => if strLen q < strLen p then some p else acc
      else acc)
    none

/-- `TRAILING_PARTICLES.sub("", token)`. -/
def trailingParticlesSub (t : String) : String :=
  match longestSuffixIn t TRAILING_PARTICLES with
  | some p => dropSuffixS t p
  | none => t

/-- The character class of the `SINGLE_PARTICLE` regex
`[이가은는을를의에와과도만까지조차부터]$` (note: a character class, so the
two-character particles contribute their individual characters). -/
def SINGLE_PARTICLE_CHARS : List Char :=
  ['이', '가', '은', '는', '을', '를', '의', '에', '와', '과', '도', '만',
   '까', '지', '조', '차', '부', '터']

/-- `SINGLE_PARTICLE.sub("", token)`: strip one trailing particle character. -/
def singleParticleSub (t : String) : String :=
  match t.data.getLast? with
  | some c => if c ∈ SINGLE_PARTICLE_CHARS then ⟨t.data.dropLast⟩ else t
  | none => t

/-- `_normalize_token`. -/
def normalize_token (t : String) : String :=
  singleParticleSub (trailingParticlesSub (stripS t))

/-- One entry of `VERB_BASE_RULES`: an alternation of literal patterns
(`anchored` when the regex ends in `$`) mapping to a dictionary base form. -/
structure VerbRule where
  pats : List String
  anchored : Bool
  base : String

/-- `VERB_BASE_RULES` of `keyword_extractor.py`. -/
def VERB_BASE_RULES : List VerbRule :=
  [⟨["빌려줬", "빌려주었", "빌려주었습", "빌려줬습"], false, "빌려주다"⟩,
   ⟨["빌렸", "빌려", "빌리었", "빌리었습", "빌렸습"], false, "빌리다"⟩,
   ⟨["타였", "탔", "탔다", "탔습", "타겠"], false, "타다"⟩,
   ⟨["했", "하였", "합니다", "했습", "해요", "합니다"], true, "하다"⟩]

/-- `pattern.search(t)` for a verb rule: substring match, or suffix match for
the `$`-anchored rule. -/
def verbRuleMatches (t : String) (r : VerbRule) : Bool :=
  if r.anchored then r.pats.any (fun p => endsWithS t p)
  else r.pats.any (fun p => containsS t p)

/-- `ENDINGS_TO_STRIP`, in the source's tuple order (duplicates included). -/
def ENDINGS_TO_STRIP : List String :=
  ["였습니다", "였습니다만", "였습니다만", "이었어요", "이었는데", "이었습니다",
   "이었습니다만", "이었습", "입니다", "입니까", "입니다만", "였어요", "했어요",
   "했는데", "했지만", "했으니", "했으며", "했으나", "했으면", "했습니다", "했습니까",
   "했습", "습니다", "습니까", "습니다만", "는데", "라서", "이라서", "이라면", "이면",
   "이면요", "네요", "에요", "예요", "어요", "아서", "어서", "었어요", "였어요",
   "였는데", "겠어요", "겠네요", "겠는데", "겠습"]

/-- The ending-strip condition of `_derive_meaning_units`:
`token.endswith(ending) and len(token) - len(ending) >= 2`. -/
def endingApplies (token e : String) : Bool :=
  endsWithS token e && decide (2 ≤ strLen token - strLen e)

/-- `_derive_meaning_units`: strip the first applicable ending (the loop
breaks on the first match in tuple order), then add dictionary base forms
from `VERB_BASE_RULES` and the `...하 → 하다` rule, and keep units of
length ≥ 2. -/
def derive_meaning_units (token : String) : List String :=
  let stripStep : Option String :=
    (ENDINGS_TO_STRIP.find? (fun e => endingApplies token e)).map
      fun e => dropSuffixS token e
  let units : List String := match stripStep with
    | some s => [s]
    | none => []
  let tok' : String := match stripStep with
    | some s => s
    | none => token
  let units := VERB_BASE_RULES.foldl
    (fun us r =>
      if verbRuleMatches tok' r && decide (r.base ∉ us) then us ++ [r.base] else us)
    units
  let units :=
    if endsWithS tok' "하" && decide ("하다" ∉ units) then units ++ ["하다"] else units
  units.filter fun u => 2 ≤ strLen u

/-- `DOMAIN_EXPAND_RULES`: each regex is an unanchored alternation of
literals, carried here as the list of its alternatives. -/
def DOMAIN_EXPAND_RULES : List (List String × List String) :=
  [(["빌리", "빌려", "대여", "꿔", "차용"],
    ["차용", "금전대여", "채무", "변제", "채권", "채무불이행"]),
   (["돈", "금전", "채무", "채권"], ["금전", "채무", "채권", "변제"]),
   (["잠수", "연락", "두절", "도피"], ["연락두절", "채무불이행", "기망", "사기"]),
   (["사기", "기망", "속임"], ["사기", "기망", "형사", "손해배상"])]

/-- `_expand_domain`: accumulate the additions of every matching rule, in
rule order. -/
def expand_domain (token : String) : List String :=
  DOMAIN_EXPAND_RULES.foldl
    (fun acc r => if r.1.any (fun p => containsS token p) then acc ++ r.2 else acc)
    []

/-- `SYNONYM_SEEDS` (a dict with distinct keys; modelled as an assoc list). -/
def SYNONYM_SEEDS : List (String × List String) :=
  [("보험", ["보험금", "보험료", "보험계약", "공제", "손해보험", "자동차보험"]),
   ("사고", ["손해", "배상", "책임", "과실"]),
   ("임대", ["임대차", "월세", "전세", "보증금"]),
   ("전세", ["보증금", "임차인", "임대인"]),
   ("계약", ["계약해지", "해지", "위약금"]),
   ("임금", ["급여", "월급", "체불"]),
   ("해고", ["부당해고", "정직", "징계"]),
   ("대여", ["차용", "금전대여", "채무", "채권", "변제"]),
   ("빌리다", ["차용", "금전대여", "채무", "채권", "변제", "채무불이행"]),
   ("돈", ["금전", "채무", "채권", "변제"]),
   ("잠수", ["연락두절", "채무불이행", "기망", "사기"])]

/-- `SEARCH_SYNONYMS`. -/
def SEARCH_SYNONYMS : List (String × List String) :=
  [("잠수", ["연락두절", "연락불능", "행방불명", "도피"]),
   ("잠수를", ["연락두절", "연락불능", "행방불명", "도피"]),
   ("잠수를탔다", ["연락두절", "연락불능", "행방불명", "도피"]),
   ("잠수를탔습니다", ["연락두절", "연락불능", "행방불명", "도피"]),
   ("연락", ["연락두절", "연락불능"]),
   ("연락이안된다", ["연락두절", "연락불능"]),
   ("친구", ["지인", "동료"]),
   ("아는", ["지인", "친구"]),
   ("형", ["지인", "친구"]),
   ("빌려줬다", ["차용", "금전대여", "채무"]),
   ("빌려줬는데", ["차용", "금전대여", "채무", "변제"]),
   ("돈", ["금전", "채무", "채권", "변제"]),
   ("못받았다", ["미수", "채권", "채무불이행"]),
   ("못받았어요", ["미수", "채권", "채무불이행"])]

/-- Dict lookup `d.get(key, ())` on an assoc list. -/
def assocLookup (d : List (String × List String)) (key : String) : List String :=
  match d.find? (fun kv => kv.1 = key) with
  | some kv => kv.2
  | none => []

/-- `expand_related_terms`: search synonyms plus domain-rule expansions,
deduplicated and with the token itself removed, preserving order. -/
def expand_related_terms (token : String) : List String :=
  let related := assocLookup SEARCH_SYNONYMS token ++ expand_domain token
  related.foldl (fun d r => if r ∉ d ∧ r ≠ token then d ++ [r] else d) []

/-- The stopword set: builtin base plus caller-supplied additions
(`None` is the empty list). -/
def stopword_set (extra : List String) : List String := DEFAULT_STOPWORDS ++ extra

/-- The candidate-token-pool loop of `extract_keywords`: for each raw token,
normalize, drop short or stopword tokens, then add the normalized token and
its derived meaning units to the pool, each only if not already present. -/
def build_pool (stop : List String) : List String → List String → List String
  | acc, [] => acc
  | acc, t :: ts =>
    let norm := normalize_token t
    if strLen norm < 2 then build_pool stop acc ts
    else if norm ∈ stop then build_pool stop acc ts
    else
      build_pool stop
        ((norm :: derive_meaning_units norm).foldl
          (fun a p => if p ∈ a then a else a ++ [p]) acc)
        ts

/-- Stable insertion step for `most_common`: `x` goes before the first
element of strictly smaller count, after equal counts. -/
def orderedInsertDesc (c : String → Nat) (x : String) : List String → List String
  | [] => [x]
  | y :: ys => if c y ≤ c x then x :: y :: ys else y :: orderedInsertDesc c x ys

/-- Stable sort by count, descending (`sorted(items, key=count, reverse=True)`
of `Counter.most_common`). -/
def sortByCountDesc (c : String → Nat) : List String → List String
  | [] => []
  | x :: xs => orderedInsertDesc c x (sortByCountDesc c xs)

/-- First-seen-order deduplication (the key order of a `Counter`'s dict). -/
def dedupFS (l : List String) : List String :=
  l.foldl (fun a x => if x ∈ a then a else a ++ [x]) []

/-- `Counter(l).most_common()`: the distinct elements in first-seen order,
stably sorted by descending multiplicity in `l`. -/
def most_common (l : List String) : List String :=
  sortByCountDesc (fun x => l.count x) (dedupFS l)

/-- The selection loop of `extract_keywords`: walk `most_common`, skip words
already selected, stop as soon as `top_k` keywords are collected (checked
after each append). -/
def pick_keywords (k : Nat) : List String → List String → List String
  | acc, [] => acc
  | acc, w :: ws =>
    if w ∈ acc then pick_keywords k acc ws
    else
      let acc' := acc ++ [w]
      if k ≤ acc'.length then acc' else pick_keywords k acc' ws

/-- The `expand_synonyms` tail of `extract_keywords`: for each base keyword,
append its seed synonyms and domain expansions, skipping stopwords and
entries already present. -/
def apply_expansion (stop : List String) (keywords : List String) : List String :=
  keywords.foldl
    (fun ks key =>
      let ks := (assocLookup SYNONYM_SEEDS key).foldl
        (fun ks syn => if syn ∉ stop ∧ syn ∉ ks then ks ++ [syn] else ks) ks
      (expand_domain key).foldl
        (fun ks e => if e ∉ stop ∧ e ∉ ks then ks ++ [e] else ks) ks)
    keywords

/-- All values appearing in the `SYNONYM_SEEDS` table. -/
def SEED_VALUES : List String := (SYNONYM_SEEDS.map (·.2)).flatten

/-- All additions appearing in the `DOMAIN_EXPAND_RULES` table. -/
def DOMAIN_VALUES : List String := (DOMAIN_EXPAND_RULES.map (·.2)).flatten

/-- The candidate token pool built by `extract_keywords` on `text` (with the
fallback tokenizer). -/
def candidate_pool (text : String) (extra_stopwords : List String) : List String :=
  build_pool (stopword_set extra_stopwords) [] (simple_tokens text)

/-- `extract_keywords` of `keyword_extractor.py` (fallback tokenizer). -/
def extract_keywords (text : String) (top_k : Nat := 8)
    (extra_stopwords : List String := []) (expand_synonyms : Bool := true) :
    List String :=
  if text = "" then []
  else
    let stop := stopword_set extra_stopwords
    let pool := build_pool stop [] (simple_tokens text)
    let keywords := pick_keywords top_k [] (most_common pool)
    if expand_synonyms then apply_expansion stop keywords else keywords

/-! ## Data model of the pipeline (`pipeline.py`, `law_api.py`, `local_cache.py`)

Remote records are modelled after the normalization performed by
`law_api.py` (field-alias resolution, `""` for missing text). `Except.error`
models a raised transport exception. -/

/-- One item of `fetch_daily_terms(...)["items"]`. -/
structure DailyItem where
  id : String
  name : String
  source : String
  stem_relation_link : String
deriving DecidableEq

/-- The result dict of `fetch_daily_terms`. -/
structure SearchPage where
  total_count : Int
  items : List DailyItem
deriving DecidableEq

/-- One legal-term record of `fetch_daily_to_legal(...)["legal_terms"]`. -/
structure LegalTerm where
  id : String
  name : String
  relation_code : String
  relation : String
  note : String
deriving DecidableEq

/-- The result dict of `fetch_daily_to_legal`. -/
structure DailyToLegal where
  daily_term_name : String
  source : String
  legal_terms : List LegalTerm
deriving DecidableEq

/-- One article record of `fetch_legal_to_article(...)["articles"]`. -/
structure Article where
  law_id : String
  law_name : String
  article_number : String
  order_number : String
  content : String
  term_type_code : String
  term_type : String
  article_relation_link : String
deriving DecidableEq

/-- The result dict of `fetch_legal_to_article`. -/
structure LegalToArticle where
  legal_term_name : String
  articles : List Article
deriving DecidableEq

/-- A legal-term entry of a candidate's `legal_terms` list.  Remote-resolved
entries carry `articles`/`summary`/`legal_term_name` (the `{**legal, ...}`
dict built by `run_pipeline`); cache entries lack those keys, modelled by
`none`. -/
structure LegalCand where
  id : String
  name : String
  relation_code : String
  relation : String
  note : String
  articles : Option (List Article)
  summary : Option String
  legal_term_name : Option String
deriving DecidableEq

/-- An everyday-term candidate as it appears in a keyword bundle, covering
both the cache shape (`local_daily_candidates`) and the remote shape
(`{**daily_item, "keyword": tok, "legal_terms": ...}`). -/
structure DailyCandidate where
  id : String
  name : String
  source : String
  stem_relation_link : String
  keyword : String
  legal_terms : List LegalCand
deriving DecidableEq

/-- One entry of the returned `tokens` list. -/
structure KeywordBundle where
  token : String
  daily_terms : List DailyCandidate
deriving DecidableEq

/-- The dict returned by `run_pipeline`: exactly the keys `tokens`,
`keywords` and `warnings`. -/
structure Bundle where
  tokens : List KeywordBundle
  keywords : List String
  warnings : List String
deriving DecidableEq

/-- A legal-term row of the local cache (`lstrm.jsonl`), after the
`row.get("id") or row.get("법령용어ID")`-style alias resolution;
`""` stands for a missing/falsy field. -/
structure LegalRow where
  id : String
  name : String
  note : String
deriving DecidableEq

/-- A relation row of the local cache (`lstrm_rlt.jsonl`), after alias
resolution. -/
structure RelRow where
  legal_id : String
  daily_id : String
  daily_name : String
  relation_code : String
  relation : String
deriving DecidableEq

/-- The loaded local cache snapshot (`load_legal_terms`, `load_relations`). -/
structure CacheData where
  legal_terms : List LegalRow
  relations : List RelRow

/-- The per-run configuration constants of `pipeline.py`
(`LAWGO_MAX_PAGES`, `LAWGO_PER_PAGE`, `LAWGO_SEARCH_BUDGET`). -/
structure PipeConfig where
  max_daily_pages : Nat := 1
  daily_per_page : Nat := 20
  search_budget_sec : Nat := 6

/-- The I/O environment: the three remote operations of `law_api.py`, each
indexed by its own call counter, and the monotonic clock as a stream of
readings. -/
structure Env where
  fetch_daily_terms : Nat → String → Nat → Nat → Except String SearchPage
  fetch_daily_to_legal : Nat → String → Except String DailyToLegal
  fetch_legal_to_article : Nat → String → Except String LegalToArticle
  clock : Nat → Nat

/-- The effect state threaded through the pipeline: accumulated warnings and
the call counters of the three remote operations and the clock. -/
structure PipeState where
  warnings : List String
  sIdx : Nat
  dIdx : Nat
  aIdx : Nat
  clkIdx : Nat

/-! ## Local cache index (`local_cache.py`) -/

/-- `_matches(token, name)`: both strip-nonempty and `token in name`. -/
def cache_matches (token name : String) : Bool :=
  let t := stripS token
  let n := stripS name
  !(t = "") && !(n = "") && containsS n t

/-- Lookup in the insertion-ordered `daily_map`. -/
def mapFind (m : List (String × DailyCandidate)) (k : String) :
    Option DailyCandidate :=
  (m.find? (fun kv => kv.1 = k)).map (·.2)

/-- In-place `entry["legal_terms"].append(...)` on the mapped candidate. -/
def mapAppendLegal (m : List (String × DailyCandidate)) (k : String)
    (le : LegalCand) : List (String × DailyCandidate) :=
  m.map fun kv =>
    if kv.1 = k then (kv.1, { kv.2 with legal_terms := kv.2.legal_terms ++ [le] })
    else kv

/-- The inner relation loop of `local_daily_candidates` for one matched legal
term: insert a new everyday-term entry or append another legal link to an
existing one, breaking once `max_daily` entries exist. -/
def cache_rel_loop (le : LegalRow) (token : String) (max_daily : Nat) :
    List RelRow → List (String × DailyCandidate) → List (String × DailyCandidate)
  | [], m => m
  | rel :: rels, m =>
    if rel.daily_name = "" then cache_rel_loop le token max_daily rels m
    else
      let key := if rel.daily_id ≠ "" then rel.daily_id else rel.daily_name
      let legal_entry : LegalCand :=
        ⟨le.id, le.name, rel.relation_code, rel.relation, le.note, none, none, none⟩
      let m' := match mapFind m key with
        | none =>
          m ++ [(key, ⟨key, rel.daily_name, "cache:lstrmRlt", "", token, [legal_entry]⟩)]
        | some _ => mapAppendLegal m key legal_entry
      if max_daily ≤ m'.length then m' else cache_rel_loop le token max_daily rels m'

/-- The outer loop of `local_daily_candidates` over the matched legal terms
(rows with a falsy id are skipped; the break condition is re-checked after
each legal term's relations). -/
def cache_legal_loop (cache : CacheData) (token : String) (max_daily : Nat) :
    List LegalRow → List (String × DailyCandidate) → List (String × DailyCandidate)
  | [], m => m
  | lt :: lts, m =>
    if lt.id = "" then cache_legal_loop cache token max_daily lts m
    else
      let rels := cache.relations.filter fun r => r.legal_id = lt.id
      let m' := cache_rel_loop lt token max_daily rels m
      if max_daily ≤ m'.length then m'
      else cache_legal_loop cache token max_daily lts m'

/-- `local_daily_candidates` of `local_cache.py`. -/
def local_daily_candidates (cache : CacheData) (token : String)
    (max_daily : Nat := 30) (max_legal : Nat := 50) : List DailyCandidate :=
  let token := stripS token
  if token = "" then []
  else
    let matched :=
      (cache.legal_terms.filter fun lt => cache_matches token lt.name).take max_legal
    (cache_legal_loop cache token max_daily matched []).map (·.2)

/-! ## Summary picking (`_pick_summary`) -/

/-- `text.replace("\n", " ").strip()`. -/
def clean_content (s : String) : String :=
  stripS ⟨s.data.map fun c => if c = '\n' then ' ' else c⟩

/-- The sentence-ending delimiters, in the source's tuple (priority) order. -/
def SPLIT_CHARS : List String := [". ", "。", "…", "!", "?"]

/-- The delimiter cut of `_pick_summary`: the first delimiter in priority
order that occurs anywhere in the cleaned text wins, splitting at its first
occurrence. -/
def cut_content (c : String) : String :=
  let cleaned := clean_content c
  match SPLIT_CHARS.find? (fun d => containsS cleaned d) with
  | some d => splitFirst cleaned d
  | none => cleaned

/-- `_pick_summary` of `pipeline.py`: summary from the first content that is
non-empty after cleaning, delimiter-cut, hard-truncated with an ellipsis when
longer than `limit`. -/
def pick_summary (contents : List String) (limit : Int := 160) : String :=
  match contents with
  | [] => ""
  | c :: cs =>
    if c = "" then pick_summary cs limit
    else if clean_content c = "" then pick_summary cs limit
    else
      let cut := cut_content c
      if limit < (strLen cut : Int) then ⟨pySlice cut.data (limit - 1)⟩ ++ "…"
      else cut

/-! ## The resolution pipeline (`run_pipeline`) -/

/-- Result of `_fetch_all_daily`: collected items, the number of pages
successfully fetched (one per successful `fetch_daily_terms` call), and the
threaded effect state. -/
structure FetchResult where
  items : List DailyItem
  pages : Nat
  st : PipeState

/-- `result.get("total_count") or total_count`: keep the previous value when
the new one is falsy (zero). -/
def mergeTotal (new : Int) (old : Option Int) : Option Int :=
  if new ≠ 0 then some new else old

/-- `if total_count and len(items) >= total_count`. -/
def totalReached (tc : Option Int) (n : Nat) : Bool :=
  match tc with
  | some t => decide (t ≠ 0) && decide (t ≤ (n : Int))
  | none => false

/-- The `while page <= max_pages` loop of `_fetch_all_daily`.  `fuel` is
`max_pages - page + 1`; each iteration reads the clock once, then either
records a timeout warning, records a transport-failure warning, or extends
the item list and applies the total-count and last-page-heuristic breaks. -/
def fetch_pages (env : Env) (cfg : PipeConfig) (term : String) (per_page : Nat)
    (start : Nat) :
    Nat → Nat → List DailyItem → Option Int → Nat → PipeState → FetchResult
  | 0, _, items, _, pages, st => ⟨items, pages, st⟩
  | fuel + 1, page, items, tc, pages, st =>
    let now := env.clock st.clkIdx
    let st := { st with clkIdx := st.clkIdx + 1 }
    if cfg.search_budget_sec < now - start then
      ⟨items, pages,
        { st with warnings := st.warnings ++
            ["daily search timeout for '" ++ term ++ "' (>" ++
              toString cfg.search_budget_sec ++ "s)"] }⟩
    else
      match env.fetch_daily_terms st.sIdx term page per_page with
      | .error exc =>
        ⟨items, pages,
          { st with sIdx := st.sIdx + 1,
                    warnings := st.warnings ++
                      ["daily search failed for '" ++ term ++ "': " ++ exc] }⟩
      | .ok result =>
        let st := { st with sIdx := st.sIdx + 1 }
        let items := items ++ result.items
        let pages := pages + 1
        let tc := mergeTotal result.total_count tc
        if totalReached tc items.length then ⟨items, pages, st⟩
        else if result.items.length < per_page then ⟨items, pages, st⟩
        else fetch_pages env cfg term per_page start fuel (page + 1) items tc pages st

/-- `_fetch_all_daily`: read the start time, then page from page 1 under the
per-term page budget `max_pages` and the per-term time budget. -/
def fetch_all_daily (env : Env) (cfg : PipeConfig) (term : String)
    (per_page max_pages : Nat) (st : PipeState) : FetchResult :=
  let start := env.clock st.clkIdx
  let st := { st with clkIdx := st.clkIdx + 1 }
  fetch_pages env cfg term per_page start max_pages 1 [] none 0 st

/-- Resolve one legal term to its articles and summary (the body of the
`for legal in mapped[:legal_per_daily]` loop, after the id guard).  On a
transport error the articles degrade to `[]` with a warning, and the
`legal_term_name` lookup falls back to the legal term's own name (the
`.get("legal_term_name", legal.get("name", ""))` default). -/
def resolve_legal_one (env : Env) (legal : LegalTerm) (st : PipeState) :
    LegalCand × PipeState :=
  match env.fetch_legal_to_article st.aIdx legal.id with
  | .ok r =>
    (⟨legal.id, legal.name, legal.relation_code, legal.relation, legal.note,
        some r.articles, some (pick_summary (r.articles.map (·.content)) 160),
        some r.legal_term_name⟩,
      { st with aIdx := st.aIdx + 1 })
  | .error exc =>
    (⟨legal.id, legal.name, legal.relation_code, legal.relation, legal.note,
        some [], some (pick_summary (([] : List Article).map (·.content)) 160),
        some legal.name⟩,
      { st with aIdx := st.aIdx + 1,
                warnings := st.warnings ++
                  ["legal->article failed for '" ++ legal.id ++ "': " ++ exc] })

/-- The loop over the (already truncated) legal-term list: entries with a
falsy id are skipped, the rest are resolved in order. -/
def resolve_legal_list (env : Env) :
    List LegalTerm → PipeState → List LegalCand × PipeState
  | [], st => ([], st)
  | l :: ls, st =>
    if l.id = "" then resolve_legal_list env ls st
    else
      let p := resolve_legal_one env l st
      let q := resolve_legal_list env ls p.2
      (p.1 :: q.1, q.2)

/-- Resolve one newly seen remote everyday term: call
`fetch_daily_to_legal` (a transport error degrades to an empty `legal_terms`
list plus a warning, `mapped = {"legal_terms": []}`), truncate to
`legal_per_daily`, resolve each legal term, and build the candidate dict. -/
def resolve_daily_item (env : Env) (legal_per_daily : Nat) (tok : String)
    (item : DailyItem) (st : PipeState) : DailyCandidate × PipeState :=
  match env.fetch_daily_to_legal st.dIdx item.id with
  | .ok m =>
    let r := resolve_legal_list env (m.legal_terms.take legal_per_daily)
      { st with dIdx := st.dIdx + 1 }
    (⟨item.id, item.name, item.source, item.stem_relation_link, tok, r.1⟩, r.2)
  | .error exc =>
    let r := resolve_legal_list env (([] : List LegalTerm).take legal_per_daily)
      { st with dIdx := st.dIdx + 1,
                warnings := st.warnings ++
                  ["daily->legal failed for '" ++ item.id ++ "': " ++ exc] }
    (⟨item.id, item.name, item.source, item.stem_relation_link, tok, r.1⟩, r.2)

/-- The `for daily_item in daily_items` loop of `run_pipeline`: skip items
with a falsy or already seen id, resolve the rest and append the candidate. -/
def process_daily_items (env : Env) (legal_per_daily : Nat) (tok : String) :
    List DailyItem → List String → List DailyCandidate → PipeState →
    List String × List DailyCandidate × PipeState
  | [], seen, cands, st => (seen, cands, st)
  | it :: its, seen, cands, st =>
    if it.id = "" ∨ it.id ∈ seen then
      process_daily_items env legal_per_daily tok its seen cands st
    else
      let p := resolve_daily_item env legal_per_daily tok it st
      process_daily_items env legal_per_daily tok its (seen ++ [it.id])
        (cands ++ [p.1]) p.2

/-- The `for term in search_terms` loop: fetch the term's pages, then fold
its items into the keyword's candidate accumulation. -/
def process_terms (env : Env) (cfg : PipeConfig) (legal_per_daily per_page : Nat)
    (tok : String) :
    List String → List String → List DailyCandidate → PipeState →
    List String × List DailyCandidate × PipeState
  | [], seen, cands, st => (seen, cands, st)
  | term :: terms, seen, cands, st =>
    let fr := fetch_all_daily env cfg term per_page cfg.max_daily_pages st
    let r := process_daily_items env legal_per_daily tok fr.items seen cands fr.st
    process_terms env cfg legal_per_daily per_page tok terms r.1 r.2.1 r.2.2

/-- The cache-seeding loop of `run_pipeline`: add every local candidate with
a truthy, unseen id, tracking seen ids. -/
def seed_cache :
    List DailyCandidate → List String → List DailyCandidate →
    List String × List DailyCandidate
  | [], seen, cands => (seen, cands)
  | it :: its, seen, cands =>
    if it.id ≠ "" ∧ it.id ∉ seen then
      seed_cache its (seen ++ [it.id]) (cands ++ [it])
    else seed_cache its seen cands

/-- Resolve one extracted keyword: seed from the local cache, then search the
token and its related expansions remotely. -/
def process_token (env : Env) (cache : CacheData) (cfg : PipeConfig)
    (daily_per_keyword legal_per_daily : Nat) (tok : String) (st : PipeState) :
    KeywordBundle × PipeState :=
  let local_daily := local_daily_candidates cache tok (daily_per_keyword * 2) 50
  let sc := seed_cache local_daily [] []
  let search_terms := tok :: expand_related_terms tok
  let r := process_terms env cfg legal_per_daily (max 20 daily_per_keyword) tok
    search_terms sc.1 sc.2 st
  (⟨tok, r.2.1⟩, r.2.2)

/-- The `for tok in tokens` loop of `run_pipeline`. -/
def run_tokens (env : Env) (cache : CacheData) (cfg : PipeConfig)
    (daily_per_keyword legal_per_daily : Nat) :
    List String → PipeState → List KeywordBundle × PipeState
  | [], st => ([], st)
  | t :: ts, st =>
    let p := process_token env cache cfg daily_per_keyword legal_per_daily t st
    let q := run_tokens env cache cfg daily_per_keyword legal_per_daily ts p.2
    (p.1 :: q.1, q.2)

/-- `run_pipeline`, together with its final effect state (the state exposes
the accumulated warnings and the remote/clock call counters). -/
def run_pipeline_st (env : Env) (cache : CacheData) (cfg : PipeConfig)
    (text : String) (top_k : Nat := 8) (daily_per_keyword : Nat := 3)
    (legal_per_daily : Nat := 5) : Bundle × PipeState :=
  let tokens := extract_keywords text top_k [] false
  let r :=
    run_tokens env cache cfg daily_per_keyword legal_per_daily tokens ⟨[], 0, 0, 0, 0⟩
  (⟨r.1, tokens, r.2.warnings⟩, r.2)

/-- `run_pipeline` of `pipeline.py`. -/
def run_pipeline (env : Env) (cache : CacheData) (cfg : PipeConfig)
    (text : String) (top_k : Nat := 8) (daily_per_keyword : Nat := 3)
    (legal_per_daily : Nat := 5) : Bundle :=
  (run_pipeline_st env cache cfg text top_k daily_per_keyword legal_per_daily).1

/-! ## Concrete test fixtures (used by counterexamples and witnesses) -/

/-- Environment whose remote search always succeeds with an empty page, the
other operations return empty records, and the clock is constant. -/
def envEmptyOk : Env :=
  ⟨fun _ _ _ _ => .ok ⟨0, []⟩, fun _ _ => .ok ⟨"", "", []⟩,
   fun _ _ => .ok ⟨"", []⟩, fun _ => 0⟩

/-- Like `envEmptyOk`, but the monotonic clock jumps from 0 to 1000 after
its first two readings (i.e. after the first search term's only page). -/
def envLateClock : Env :=
  ⟨fun _ _ _ _ => .ok ⟨0, []⟩, fun _ _ => .ok ⟨"", "", []⟩,
   fun _ _ => .ok ⟨"", []⟩, fun n => if n < 2 then 0 else 1000⟩

/-- Like `envEmptyOk`, but every clock reading advances by 100. -/
def envSlowClock : Env :=
  ⟨fun _ _ _ _ => .ok ⟨0, []⟩, fun _ _ => .ok ⟨"", "", []⟩,
   fun _ _ => .ok ⟨"", []⟩, fun n => n * 100⟩

/-- Environment whose remote search yields one item with an absent id. -/
def envNoId : Env :=
  ⟨fun _ _ _ _ => .ok ⟨0, [⟨"", "무명", "", ""⟩]⟩, fun _ _ => .ok ⟨"", "", []⟩,
   fun _ _ => .ok ⟨"", []⟩, fun _ => 0⟩

/-- Environment whose resolve-daily-to-legal call always raises a transport
error. -/
def envResolveErr : Env :=
  ⟨fun _ _ _ _ => .ok ⟨0, []⟩, fun _ _ => .error "boom",
   fun _ _ => .ok ⟨"", []⟩, fun _ => 0⟩

/-- Cache with two legal terms whose names contain "가나", both related to
the same everyday term `D1`. -/
def cacheTwoLegal : CacheData :=
  ⟨[⟨"L1", "가나보험", ""⟩, ⟨"L2", "가나공제", ""⟩],
   [⟨"L1", "D1", "다라", "", ""⟩, ⟨"L2", "D1", "다라", "", ""⟩]⟩

/-- The empty cache. -/
def emptyCache : CacheData := ⟨[], []⟩

/-- Cache of the spec's scenario: one legal term "보험금" linked to the
everyday term "보험탄 돈", with no cache-assigned everyday-term id. -/
def cacheNoDailyId : CacheData :=
  ⟨[⟨"L1", "보험금", ""⟩], [⟨"L1", "", "보험탄 돈", "", ""⟩]⟩

/-- The initial effect state of a pipeline run. -/
def st0 : PipeState := ⟨[], 0, 0, 0, 0⟩

/-- The cache-sourced candidate produced for the keyword "가나" from
`cacheTwoLegal`: one everyday term carrying two legal-term links. -/
def candD1 : DailyCandidate :=
  ⟨"D1", "다라", "cache:lstrmRlt", "", "가나",
   [⟨"L1", "가나보험", "", "", "", none, none, none⟩,
    ⟨"L2", "가나공제", "", "", "", none, none, none⟩]⟩

/-- The keyword bundle produced for "가나" in the `cacheTwoLegal` run. -/
def bundleGana : KeywordBundle := ⟨"가나", [candD1]⟩

/-! ## Lemmas about the keyword extractor -/

theorem mem_foldl_addIfNew {l acc : List String} {x : String}
    (h : x ∈ l.foldl (fun a p => if p ∈ a then a else a ++ [p]) acc) :
    x ∈ acc ∨ x ∈ l := by
  induction l generalizing acc with
  | nil => exact Or.inl h
  | cons p ps ih =>
    simp only [List.foldl_cons] at h
    rcases ih h with h' | h'
    · by_cases hp : p ∈ acc
      · rw [if_pos hp] at h'
        exact Or.inl h'
      · rw [if_neg hp] at h'
        rcases List.mem_append.mp h' with h'' | h''
        · exact Or.inl h''
        · simp only [List.mem_singleton] at h''
          subst h''
          exact Or.inr (List.mem_cons_self _ _)
    · exact Or.inr (List.mem_cons_of_mem _ h')

theorem nodup_foldl_addIfNew {l acc : List String} (h : acc.Nodup) :
    (l.foldl (fun a p => if p ∈ a then a else a ++ [p]) acc).Nodup := by
  induction l generalizing acc with
  | nil => exact h
  | cons p ps ih =>
    simp only [List.foldl_cons]
    by_cases hp : p ∈ acc
    · rw [if_pos hp]
      exact ih h
    · rw [if_neg hp]
      refine ih ?_
      rw [List.nodup_append]
      exact ⟨h, List.nodup_singleton _, fun a ha hab => hp (List.mem_singleton.mp hab ▸ ha)⟩

theorem derive_units_len {t u : String} (h : u ∈ derive_meaning_units t) :
    2 ≤ strLen u := by
  simp only [derive_meaning_units] at h
  have := List.mem_filter.mp h
  exact of_decide_eq_true this.2

theorem build_pool_mem {stop : List String} :
    ∀ (ts acc : List String) (x : String),
      x ∈ build_pool stop acc ts →
      x ∈ acc ∨ (2 ≤ strLen x ∧ x ∉ stop) ∨ ∃ t, x ∈ derive_meaning_units t := by
  intro ts
  induction ts with
  | nil =>
    intro acc x h
    exact Or.inl h
  | cons t ts ih =>
    intro acc x h
    simp only [build_pool] at h
    split at h
    · exact ih _ _ h
    · split at h
      · exact ih _ _ h
      · rcases ih _ _ h with h' | h'
        · rcases mem_foldl_addIfNew h' with h'' | h''
          · exact Or.inl h''
          · rcases List.mem_cons.mp h'' with rfl | h3
            · exact Or.inr (Or.inl ⟨by omega, by assumption⟩)
            · exact Or.inr (Or.inr ⟨_, h3⟩)
        · exact Or.inr h'

theorem build_pool_nodup {stop : List String} :
    ∀ (ts acc : List String), acc.Nodup → (build_pool stop acc ts).Nodup := by
  intro ts
  induction ts with
  | nil =>
    intro acc h
    exact h
  | cons t ts ih =>
    intro acc h
    simp only [build_pool]
    split
    · exact ih _ h
    · split
      · exact ih _ h
      · exact ih _ (nodup_foldl_addIfNew h)

theorem foldl_addIfNew_of_disjoint :
    ∀ (l acc : List String), l.Nodup → (∀ x ∈ l, x ∉ acc) →
      l.foldl (fun a x => if x ∈ a then a else a ++ [x]) acc = acc ++ l := by
  intro l
  induction l with
  | nil =>
    intro acc _ _
    simp
  | cons x xs ih =>
    intro acc hn hd
    simp only [List.foldl_cons]
    rw [if_neg (hd x (List.mem_cons_self _ _))]
    rw [ih (acc ++ [x]) hn.of_cons]
    · simp
    · intro y hy
      simp only [List.mem_append, List.mem_singleton]
      rintro (hya | rfl)
      · exact hd y (List.mem_cons_of_mem _ hy) hya
      · exact (List.nodup_cons.mp hn).1 hy

theorem dedupFS_eq_self {l : List String} (h : l.Nodup) : dedupFS l = l := by
  unfold dedupFS
  simpa using foldl_addIfNew_of_disjoint l [] h (by simp)

theorem sortByCountDesc_eq_self {c : String → Nat} :
    ∀ l : List String, (∀ x ∈ l, ∀ y ∈ l, c y ≤ c x) → sortByCountDesc c l = l := by
  intro l
  induction l with
  | nil =>
    intro _
    rfl
  | cons x xs ih =>
    intro h
    simp only [sortByCountDesc]
    rw [ih fun a ha b hb =>
      h a (List.mem_cons_of_mem _ ha) b (List.mem_cons_of_mem _ hb)]
    cases xs with
    | nil => rfl
    | cons y ys =>
      simp only [orderedInsertDesc]
      rw [if_pos (h x (List.mem_cons_self _ _)
        y (List.mem_cons_of_mem _ (List.mem_cons_self _ _)))]

theorem most_common_eq_self {l : List String} (h : l.Nodup) : most_common l = l := by
  unfold most_common
  rw [dedupFS_eq_self h]
  refine sortByCountDesc_eq_self l fun x hx y hy => ?_
  rw [List.count_eq_one_of_mem h hx, List.count_eq_one_of_mem h hy]

theorem mem_orderedInsertDesc {c : String → Nat} {x a : String} :
    ∀ {l : List String}, x ∈ orderedInsertDesc c a l → x = a ∨ x ∈ l := by
  intro l
  induction l with
  | nil =>
    intro h
    simp only [orderedInsertDesc, List.mem_singleton] at h
    exact Or.inl h
  | cons y ys ih =>
    intro h
    simp only [orderedInsertDesc] at h
    split at h
    · simpa using h
    · rcases List.mem_cons.mp h with rfl | h'
      · exact Or.inr (List.mem_cons_self _ _)
      · rcases ih h' with h'' | h''
        · exact Or.inl h''
        · exact Or.inr (List.mem_cons_of_mem _ h'')

theorem mem_sortByCountDesc {c : String → Nat} {x : String} :
    ∀ {l : List String}, x ∈ sortByCountDesc c l → x ∈ l := by
  intro l
  induction l with
  | nil =>
    intro h
    exact h
  | cons y ys ih =>
    intro h
    simp only [sortByCountDesc] at h
    rcases mem_orderedInsertDesc h with rfl | h'
    · exact List.mem_cons_self _ _
    · exact List.mem_cons_of_mem _ (ih h')

theorem mem_most_common {l : List String} {x : String} (h : x ∈ most_common l) :
    x ∈ l := by
  unfold most_common at h
  have h' := mem_sortByCountDesc h
  unfold dedupFS at h'
  rcases mem_foldl_addIfNew h' with h'' | h''
  · simp at h''
  · exact h''

theorem pick_keywords_mem {k : Nat} :
    ∀ (l acc : List String) (x : String),
      x ∈ pick_keywords k acc l → x ∈ acc ∨ x ∈ l := by
  intro l
  induction l with
  | nil =>
    intro acc x h
    exact Or.inl h
  | cons w ws ih =>
    intro acc x h
    simp only [pick_keywords] at h
    split at h
    · rcases ih _ _ h with h' | h'
      · exact Or.inl h'
      · exact Or.inr (List.mem_cons_of_mem _ h')
    · split at h
      · rcases List.mem_append.mp h with h' | h'
        · exact Or.inl h'
        · simp only [List.mem_singleton] at h'
          subst h'
          exact Or.inr (List.mem_cons_self _ _)
      · rcases ih _ _ h with h' | h'
        · rcases List.mem_append.mp h' with h'' | h''
          · exact Or.inl h''
          · simp only [List.mem_singleton] at h''
            subst h''
            exact Or.inr (List.mem_cons_self _ _)
        · exact Or.inr (List.mem_cons_of_mem _ h')

theorem pick_keywords_nodup {k : Nat} :
    ∀ (l acc : List String), acc.Nodup → (pick_keywords k acc l).Nodup := by
  intro l
  induction l with
  | nil =>
    intro acc h
    exact h
  | cons w ws ih =>
    intro acc h
    simp only [pick_keywords]
    split
    · exact ih _ h
    · next hw =>
      have hnd : (acc ++ [w]).Nodup := by
        rw [List.nodup_append]
        exact ⟨h, List.nodup_singleton _, fun a ha hab => hw (List.mem_singleton.mp hab ▸ ha)⟩
      split
      · exact hnd
      · exact ih _ hnd

theorem pick_keywords_length {k : Nat} :
    ∀ (l acc : List String), acc.length < k → (pick_keywords k acc l).length ≤ k := by
  intro l
  induction l with
  | nil =>
    intro acc h
    exact Nat.le_of_lt h
  | cons w ws ih =>
    intro acc h
    simp only [pick_keywords]
    split
    · exact ih _ h
    · by_cases hfull : k ≤ (acc ++ [w]).length
      · rw [if_pos hfull]
        simp only [List.length_append, List.length_singleton] at hfull ⊢
        omega
      · rw [if_neg hfull]
        refine ih _ ?_
        simp only [List.length_append, List.length_singleton] at hfull ⊢
        omega

theorem pick_keywords_take {k : Nat} :
    ∀ (l acc : List String), l.Nodup → (∀ x ∈ l, x ∉ acc) → acc.length < k →
      pick_keywords k acc l = acc ++ l.take (k - acc.length) := by
  intro l
  induction l with
  | nil =>
    intro acc _ _ _
    simp [pick_keywords]
  | cons w ws ih =>
    intro acc hn hd hk
    simp only [pick_keywords]
    rw [if_neg (hd w (List.mem_cons_self _ _))]
    by_cases hfull : k ≤ (acc ++ [w]).length
    · rw [if_pos hfull]
      have : k - acc.length = 1 := by
        simp only [List.length_append, List.length_singleton] at hfull
        omega
      rw [this]
      simp
    · rw [if_neg hfull]
      rw [ih (acc ++ [w]) hn.of_cons]
      · have h1 : k - acc.length = (k - (acc ++ [w]).length) + 1 := by
          simp only [List.length_append, List.length_singleton] at hfull ⊢
          omega
        rw [h1]
        simp [List.take_succ_cons]
      · intro y hy
        simp only [List.mem_append, List.mem_singleton]
        rintro (hya | rfl)
        · exact hd y (List.mem_cons_of_mem _ hy) hya
        · exact (List.nodup_cons.mp hn).1 hy
      · simp only [List.length_append, List.length_singleton] at hfull ⊢
        omega

theorem assocLookup_subset {d : List (String × List String)} {key x : String}
    (h : x ∈ assocLookup d key) : x ∈ (d.map (·.2)).flatten := by
  unfold assocLookup at h
  cases hf : d.find? (fun kv => kv.1 = key) with
  | none => rw [hf] at h; simp at h
  | some kv =>
    rw [hf] at h
    exact List.mem_flatten.mpr
      ⟨kv.2, List.mem_map_of_mem _ (List.mem_of_find?_eq_some hf), h⟩

theorem expand_domain_subset {token x : String} (h : x ∈ expand_domain token) :
    x ∈ DOMAIN_VALUES := by
  unfold expand_domain at h
  have key : ∀ (rs : List (List String × List String)) (acc : List String),
      x ∈ rs.foldl
        (fun acc r => if r.1.any (fun p => containsS token p) then acc ++ r.2 else acc)
        acc →
      x ∈ acc ∨ ∃ r, r ∈ rs ∧ x ∈ r.2 := by
    intro rs
    induction rs with
    | nil =>
      intro acc h'
      exact Or.inl h'
    | cons r rs ih =>
      intro acc h'
      simp only [List.foldl_cons] at h'
      rcases ih _ h' with h'' | h''
      · split at h''
        · rcases List.mem_append.mp h'' with h3 | h3
          · exact Or.inl h3
          · exact Or.inr ⟨r, List.mem_cons_self _ _, h3⟩
        · exact Or.inl h''
      · rcases h'' with ⟨r', hr', hx⟩
        exact Or.inr ⟨r', List.mem_cons_of_mem _ hr', hx⟩
  rcases key _ _ h with h' | ⟨r, hr, hx⟩
  · simp at h'
  · exact List.mem_flatten.mpr ⟨r.2, List.mem_map_of_mem _ hr, hx⟩

theorem mem_foldl_guard {stop : List String} :
    ∀ (l ks : List String) (x : String),
      x ∈ l.foldl (fun ks s => if s ∉ stop ∧ s ∉ ks then ks ++ [s] else ks) ks →
      x ∈ ks ∨ (x ∈ l ∧ x ∉ stop) := by
  intro l
  induction l with
  | nil =>
    intro ks x h
    exact Or.inl h
  | cons s ss ih =>
    intro ks x h
    simp only [List.foldl_cons] at h
    rcases ih _ _ h with h' | h'
    · split at h'
      · next hs =>
        rcases List.mem_append.mp h' with h'' | h''
        · exact Or.inl h''
        · simp only [List.mem_singleton] at h''
          subst h''
          exact Or.inr ⟨List.mem_cons_self _ _, hs.1⟩
      · exact Or.inl h'
    · exact Or.inr ⟨List.mem_cons_of_mem _ h'.1, h'.2⟩

theorem nodup_foldl_guard {stop : List String} :
    ∀ (l ks : List String), ks.Nodup →
      (l.foldl (fun ks s => if s ∉ stop ∧ s ∉ ks then ks ++ [s] else ks) ks).Nodup := by
  intro l
  induction l with
  | nil =>
    intro ks h
    exact h
  | cons s ss ih =>
    intro ks h
    simp only [List.foldl_cons]
    split
    · next hs =>
      refine ih _ ?_
      rw [List.nodup_append]
      exact ⟨h, List.nodup_singleton _,
        fun a ha hab => hs.2 (List.mem_singleton.mp hab ▸ ha)⟩
    · exact ih _ h

theorem apply_expansion_mem {stop ks : List String} {x : String}
    (h : x ∈ apply_expansion stop ks) :
    x ∈ ks ∨ ((x ∈ SEED_VALUES ∨ x ∈ DOMAIN_VALUES) ∧ x ∉ stop) := by
  unfold apply_expansion at h
  have key : ∀ (keys acc : List String),
      x ∈ keys.foldl
        (fun cur key =>
          (expand_domain key).foldl
            (fun ks e => if e ∉ stop ∧ e ∉ ks then ks ++ [e] else ks)
            ((assocLookup SYNONYM_SEEDS key).foldl
              (fun ks syn => if syn ∉ stop ∧ syn ∉ ks then ks ++ [syn] else ks) cur)) acc →
      x ∈ acc ∨ ((x ∈ SEED_VALUES ∨ x ∈ DOMAIN_VALUES) ∧ x ∉ stop) := by
    intro keys
    induction keys with
    | nil =>
      intro acc h'
      exact Or.inl h'
    | cons key keys ih =>
      intro acc h'
      simp only [List.foldl_cons] at h'
      rcases ih _ h' with h'' | h''
      · rcases mem_foldl_guard _ _ _ h'' with h3 | h3
        · rcases mem_foldl_guard _ _ _ h3 with h4 | h4
          · exact Or.inl h4
          · exact Or.inr ⟨Or.inl (assocLookup_subset h4.1), h4.2⟩
        · exact Or.inr ⟨Or.inr (expand_domain_subset h3.1), h3.2⟩
      · exact Or.inr h''
  exact key ks ks h

theorem apply_expansion_nodup {stop ks : List String} (h : ks.Nodup) :
    (apply_expansion stop ks).Nodup := by
  unfold apply_expansion
  have key : ∀ (keys acc : List String), acc.Nodup →
      (keys.foldl
        (fun cur key =>
          (expand_domain key).foldl
            (fun ks e => if e ∉ stop ∧ e ∉ ks then ks ++ [e] else ks)
            ((assocLookup SYNONYM_SEEDS key).foldl
              (fun ks syn => if syn ∉ stop ∧ syn ∉ ks then ks ++ [syn] else ks) cur))
        acc).Nodup := by
    intro keys
    induction keys with
    | nil =>
      intro acc h'
      exact h'
    | cons key keys ih =>
      intro acc h'
      simp only [List.foldl_cons]
      exact ih _ (nodup_foldl_guard _ _ (nodup_foldl_guard _ _ h'))
  exact key ks ks h

theorem seed_values_len : ∀ v ∈ SEED_VALUES, 2 ≤ strLen v := by decide

theorem domain_values_len : ∀ v ∈ DOMAIN_VALUES, 2 ≤ strLen v := by decide

theorem extract_keywords_base (text : String) (top_k : Nat)
    (extra_stopwords : List String) :
    extract_keywords text top_k extra_stopwords false =
      pick_keywords top_k []
        (most_common (candidate_pool text extra_stopwords)) ∨
    (text = "" ∧ extract_keywords text top_k extra_stopwords false = []) := by
  by_cases ht : text = ""
  · exact Or.inr ⟨ht, by simp [extract_keywords, ht]⟩
  · exact Or.inl (by simp [extract_keywords, ht, candidate_pool])


/-- Everything in the candidate pool has length ≥ 2, and stopwords enter the
pool only as derived meaning units. -/
theorem candidate_pool_mem {text : String} {extra_stopwords : List String}
    {x : String} (h : x ∈ candidate_pool text extra_stopwords) :
    (2 ≤ strLen x ∧ x ∉ stopword_set extra_stopwords) ∨
    ∃ t, x ∈ derive_meaning_units t := by
  rcases build_pool_mem _ _ _ h with h' | h' | h'
  · simp at h'
  · exact Or.inl h'
  · exact Or.inr h'

/-- The pre-expansion keyword list, when the text is nonempty. -/
theorem extract_keywords_eq_pick {text : String} {top_k : Nat}
    {extra_stopwords : List String} (ht : text ≠ "") :
    extract_keywords text top_k extra_stopwords false =
      pick_keywords top_k [] (most_common (candidate_pool text extra_stopwords)) := by
  simp [extract_keywords, ht, candidate_pool]

/-- The expanded keyword list, when the text is nonempty. -/
theorem extract_keywords_eq_expand {text : String} {top_k : Nat}
    {extra_stopwords : List String} (ht : text ≠ "") :
    extract_keywords text top_k extra_stopwords true =
      apply_expansion (stopword_set extra_stopwords)
        (pick_keywords top_k [] (most_common (candidate_pool text extra_stopwords))) := by
  simp [extract_keywords, ht, candidate_pool]

/-- C1 (amended): for every input text, every `top_k`, every extra-stopword
set and both settings of `expand_synonyms`, `extract_keywords` returns a
duplicate-free ordered list of tokens each of length ≥ 2, empty on empty
input.  The `top_k` bound holds when `expand_synonyms` is false; with
expansion enabled the matched synonym/domain entries are appended beyond
`top_k` (refuting the unconditional bound of the original claim).  Normalized
source tokens and expansion entries are stopword-filtered, but derived
meaning units are not: a stopword in the output is always a derived meaning
unit (refuting the original claim's unconditional stopword-freeness). -/
theorem extract_keywords_shape (text : String) (top_k : Nat)
    (extra_stopwords : List String) (expand_synonyms : Bool) :
    (extract_keywords text top_k extra_stopwords expand_synonyms).Nodup ∧
    (∀ kw ∈ extract_keywords text top_k extra_stopwords expand_synonyms,
      2 ≤ strLen kw) ∧
    (expand_synonyms = false → 1 ≤ top_k →
      (extract_keywords text top_k extra_stopwords expand_synonyms).length ≤ top_k) ∧
    (text = "" → extract_keywords text top_k extra_stopwords expand_synonyms = []) ∧
    (∀ kw ∈ extract_keywords text top_k extra_stopwords expand_synonyms,
      kw ∈ stopword_set extra_stopwords → ∃ t, kw ∈ derive_meaning_units t) := by
  by_cases ht : text = ""
  · subst ht
    simp [extract_keywords]
  · have hbase_nodup :
        (pick_keywords top_k [] (most_common (candidate_pool text extra_stopwords))).Nodup :=
      pick_keywords_nodup _ _ List.nodup_nil
    have hbase_mem :
        ∀ x ∈ pick_keywords top_k [] (most_common (candidate_pool text extra_stopwords)),
          x ∈ candidate_pool text extra_stopwords := by
      intro x hx
      rcases pick_keywords_mem _ _ _ hx with h | h
      · simp at h
      · exact mem_most_common h
    cases expand_synonyms with
    | false =>
      rw [extract_keywords_eq_pick ht]
      refine ⟨hbase_nodup, ?_, ?_, fun h => absurd h ht, ?_⟩
      · intro kw hkw
        rcases candidate_pool_mem (hbase_mem kw hkw) with h | ⟨t, h⟩
        · exact h.1
        · exact derive_units_len h
      · intro _ hk
        exact pick_keywords_length _ [] (by simpa using hk)
      · intro kw hkw hstop
        rcases candidate_pool_mem (hbase_mem kw hkw) with h | h
        · exact absurd hstop h.2
        · exact h
    | true =>
      rw [extract_keywords_eq_expand ht]
      refine ⟨apply_expansion_nodup hbase_nodup, ?_, ?_, fun h => absurd h ht, ?_⟩
      · intro kw hkw
        rcases apply_expansion_mem hkw with h | ⟨h, _⟩
        · rcases candidate_pool_mem (hbase_mem kw h) with h' | ⟨t, h'⟩
          · exact h'.1
          · exact derive_units_len h'
        · rcases h with h | h
          · exact seed_values_len kw h
          · exact domain_values_len kw h
      · intro h
        simp at h
      · intro kw hkw hstop
        rcases apply_expansion_mem hkw with h | ⟨_, h⟩
        · rcases candidate_pool_mem (hbase_mem kw h) with h' | h'
          · exact absurd hstop h'.2
          · exact h'
        · exact absurd hstop h

/-- C1, witness: the shape theorem instantiated at a concrete call. -/
theorem extract_keywords_shape_witness :
    (extract_keywords "일하" 2 [] false).Nodup ∧
    (∀ kw ∈ extract_keywords "일하" 2 [] false, 2 ≤ strLen kw) ∧
    (false = false → 1 ≤ 2 → (extract_keywords "일하" 2 [] false).length ≤ 2) ∧
    ("일하" = "" → extract_keywords "일하" 2 [] false = []) ∧
    (∀ kw ∈ extract_keywords "일하" 2 [] false,
      kw ∈ stopword_set [] → ∃ t, kw ∈ derive_meaning_units t) :=
  extract_keywords_shape "일하" 2 [] false

/-- C1, counterexample to the original claim: on input "일하" the derived
meaning unit "하다" — a builtin stopword — is emitted, and with
`expand_synonyms` enabled the output exceeds `top_k = 1`. -/
theorem extract_keywords_claim_false :
    extract_keywords "일하" 2 [] false = ["일하", "하다"] ∧
    "하다" ∈ stopword_set [] ∧
    (extract_keywords "보험" 1 [] true).length = 7 ∧
    1 < (extract_keywords "보험" 1 [] true).length := by
  refine ⟨by decide, by decide, by decide, by decide⟩

/-- C6 (amended): the candidate pool is deduplicated as it is built
(`if piece not in tokens`), so every pool entry's frequency is exactly one
and the `Counter.most_common` selection degenerates to first-seen order
truncated to `top_k` — input multiplicity gains a token no rank. -/
theorem extract_keywords_first_seen (text : String) (top_k : Nat)
    (extra_stopwords : List String) (h : 1 ≤ top_k) :
    extract_keywords text top_k extra_stopwords false =
      (candidate_pool text extra_stopwords).take top_k ∧
    (candidate_pool text extra_stopwords).Nodup := by
  have hnd : (candidate_pool text extra_stopwords).Nodup :=
    build_pool_nodup _ _ List.nodup_nil
  refine ⟨?_, hnd⟩
  by_cases ht : text = ""
  · subst ht
    have hp : candidate_pool "" extra_stopwords = [] := rfl
    rw [hp]
    simp [extract_keywords]
  · rw [extract_keywords_eq_pick ht, most_common_eq_self hnd,
      pick_keywords_take _ [] hnd (by simp) (by simp only [List.length_nil]; omega)]
    simp

/-- C6, witness: the amended theorem instantiated at a concrete call. -/
theorem extract_keywords_first_seen_witness :
    extract_keywords "나나 마마" 1 [] false = (candidate_pool "나나 마마" []).take 1 ∧
    (candidate_pool "나나 마마" []).Nodup :=
  extract_keywords_first_seen "나나 마마" 1 [] (by decide)

/-- C6, counterexample to the original claim: in
"나나 마마 마마 마마" the token "마마" occurs three times and "나나" once,
yet the pool is deduplicated before counting, so "나나" (first seen) is
ranked first and is the sole `top_k = 1` keyword. -/
theorem frequency_ranking_claim_false :
    extract_keywords "나나 마마 마마 마마" 1 [] false = ["나나"] ∧
    extract_keywords "나나 마마 마마 마마" 2 [] false = ["나나", "마마"] ∧
    ((simple_tokens "나나 마마 마마 마마").map normalize_token).count "마마" = 3 ∧
    ((simple_tokens "나나 마마 마마 마마").map normalize_token).count "나나" = 1 := by
  refine ⟨by decide, by decide, by decide, by decide⟩

/-- A successful `find?` splits its list at the first satisfying element. -/
theorem find?_first {α : Type} {p : α → Bool} :
    ∀ {l : List α} {a : α}, l.find? p = some a →
      ∃ pre suf, l = pre ++ a :: suf ∧ (∀ x ∈ pre, p x = false) ∧ p a = true := by
  intro l
  induction l with
  | nil =>
    intro a h
    simp at h
  | cons x xs ih =>
    intro a h
    by_cases hp : p x = true
    · rw [List.find?_cons_of_pos _ hp] at h
      cases h
      exact ⟨[], xs, by simp, by simp, hp⟩
    · rw [List.find?_cons_of_neg _ hp] at h
      rcases ih h with ⟨pre, suf, heq, hpre, hpa⟩
      refine ⟨x :: pre, suf, by rw [heq]; rfl, ?_, hpa⟩
      intro y hy
      rcases List.mem_cons.mp hy with rfl | hy'
      · simpa using hp
      · exact hpre y hy'

theorem strLen_dropSuffixS (t e : String) :
    strLen (dropSuffixS t e) = strLen t - strLen e := by
  simp only [dropSuffixS, strLen, List.length_take]
  omega

/-- The verb-base fold of `_derive_meaning_units` only appends. -/
theorem verb_fold_append (tok' : String) :
    ∀ (rs : List VerbRule) (init : List String),
      ∃ rest,
        rs.foldl
          (fun us r =>
            if verbRuleMatches tok' r && decide (r.base ∉ us) then us ++ [r.base] else us)
          init = init ++ rest := by
  intro rs
  induction rs with
  | nil =>
    intro init
    exact ⟨[], by simp⟩
  | cons r rs ih =>
    intro init
    simp only [List.foldl_cons]
    split
    · rcases ih (init ++ [r.base]) with ⟨rest, hrest⟩
      exact ⟨[r.base] ++ rest, by rw [hrest, List.append_assoc]⟩
    · exact ih init

/-- When an ending applies, the head of the derived meaning units is the
token with that first applicable ending stripped. -/
theorem derive_first_unit {t e0 : String}
    (h : ENDINGS_TO_STRIP.find? (fun e => endingApplies t e) = some e0) :
    (derive_meaning_units t).head? = some (dropSuffixS t e0) := by
  have hlen : 2 ≤ strLen (dropSuffixS t e0) := by
    have hp := List.find?_some h
    have := of_decide_eq_true (Bool.and_elim_right hp)
    rw [strLen_dropSuffixS]
    exact this
  simp only [derive_meaning_units, h, Option.map_some']
  rcases verb_fold_append (dropSuffixS t e0) VERB_BASE_RULES [dropSuffixS t e0] with
    ⟨rest, hrest⟩
  rw [hrest]
  by_cases hha :
      (endsWithS (dropSuffixS t e0) "하" && decide ("하다" ∉ [dropSuffixS t e0] ++ rest)) = true
  · rw [if_pos hha]
    rw [List.append_assoc, List.singleton_append, List.filter_cons_of_pos (by simpa using hlen)]
    rfl
  · rw [if_neg hha]
    rw [List.singleton_append, List.filter_cons_of_pos (by simpa using hlen)]
    rfl

/-- C7 (amended): `_derive_meaning_units` strips the first ending in the
table's listed order whose removal leaves at least two characters — a
first-match rule over `ENDINGS_TO_STRIP`, not a longest-suffix-match rule
(the table is not ordered longest-first, see the counterexample). -/
theorem derive_strips_first_match (t e : String)
    (he : e ∈ ENDINGS_TO_STRIP) (ha : endingApplies t e = true) :
    ∃ pre e0 suf, ENDINGS_TO_STRIP = pre ++ e0 :: suf ∧
      (∀ e' ∈ pre, endingApplies t e' = false) ∧
      endingApplies t e0 = true ∧
      (derive_meaning_units t).head? = some (dropSuffixS t e0) := by
  have hsome : (ENDINGS_TO_STRIP.find? (fun e => endingApplies t e)).isSome := by
    rw [List.find?_isSome]
    exact ⟨e, he, ha⟩
  obtain ⟨e0, h0⟩ := Option.isSome_iff_exists.mp hsome
  obtain ⟨pre, suf, heq, hpre, hp0⟩ := find?_first h0
  exact ⟨pre, e0, suf, heq, hpre, hp0, derive_first_unit h0⟩

/-- C7, witness: the amended theorem instantiated at the token "가나었어요"
and the applicable table ending "었어요". -/
theorem derive_strips_first_match_witness :
    ∃ pre e0 suf, ENDINGS_TO_STRIP = pre ++ e0 :: suf ∧
      (∀ e' ∈ pre, endingApplies "가나었어요" e' = false) ∧
      endingApplies "가나었어요" e0 = true ∧
      (derive_meaning_units "가나었어요").head? = some (dropSuffixS "가나었어요" e0) :=
  derive_strips_first_match "가나었어요" "었어요" (by decide) (by decide)

/-- C7, counterexample to the original claim: both "어요" and "었어요" are
table endings matching the suffix of "가나었어요" with remainders of length
≥ 2, yet derivation strips the shorter "어요" (listed earlier), not the
longer "었어요". -/
theorem longest_ending_claim_false :
    "어요" ∈ ENDINGS_TO_STRIP ∧ "었어요" ∈ ENDINGS_TO_STRIP ∧
    endingApplies "가나었어요" "어요" = true ∧
    endingApplies "가나었어요" "었어요" = true ∧
    strLen "어요" < strLen "었어요" ∧
    derive_meaning_units "가나었어요" = [dropSuffixS "가나었어요" "어요"] ∧
    dropSuffixS "가나었어요" "어요" = "가나었" := by
  refine ⟨by decide, by decide, by decide, by decide, by decide, by decide, by decide⟩


/-! ## Lemmas about the pipeline's budgets and error recovery -/

theorem fetch_pages_pages_le (env : Env) (cfg : PipeConfig) (term : String)
    (per_page start : Nat) :
    ∀ (fuel page : Nat) (items : List DailyItem) (tc : Option Int) (pages : Nat)
      (st : PipeState),
      (fetch_pages env cfg term per_page start fuel page items tc pages st).pages ≤
        pages + fuel := by
  intro fuel
  induction fuel with
  | zero =>
    intro page items tc pages st
    simp [fetch_pages]
  | succ fuel ih =>
    intro page items tc pages st
    simp only [fetch_pages]
    split
    · simp
    · split
      · simp
      · split
        · simp
        · split
          · simp
          · calc (fetch_pages env cfg term per_page start fuel (page + 1) _ _
                (pages + 1) _).pages ≤ (pages + 1) + fuel := ih _ _ _ _ _
              _ = pages + (fuel + 1) := by omega

/-- C3 (amended): the page budget and the time budget of the daily-term
search are per search term, not shared across the keyword: one
`_fetch_all_daily` call fetches at most `max_pages` pages, and its deadline
is measured from that call's own start reading — when the first in-loop
clock reading already exceeds the budget, no page is fetched and a timeout
warning is recorded.  (The original claim's keyword-global page total and
shared deadline are refuted by `page_budget_claim_false`.) -/
theorem fetch_all_daily_budgets (env : Env) (cfg : PipeConfig) (term : String)
    (per_page max_pages : Nat) (st : PipeState) :
    (fetch_all_daily env cfg term per_page max_pages st).pages ≤ max_pages ∧
    (1 ≤ max_pages →
      cfg.search_budget_sec < env.clock (st.clkIdx + 1) - env.clock st.clkIdx →
      (fetch_all_daily env cfg term per_page max_pages st).pages = 0 ∧
      (fetch_all_daily env cfg term per_page max_pages st).st.warnings =
        st.warnings ++
          ["daily search timeout for '" ++ term ++ "' (>" ++
            toString cfg.search_budget_sec ++ "s)"]) := by
  constructor
  · have := fetch_pages_pages_le env cfg term per_page (env.clock st.clkIdx)
      max_pages 1 [] none 0 { st with clkIdx := st.clkIdx + 1 }
    simpa [fetch_all_daily] using this
  · intro hmp hclk
    cases max_pages with
    | zero => omega
    | succ m =>
      simp only [fetch_all_daily, fetch_pages]
      rw [if_pos hclk]
      exact ⟨rfl, rfl⟩

/-- C3 amended theorem, witness: with a clock advancing 100 per reading and
the default six-second budget, the very first in-loop reading exceeds the
budget, so the term fetches zero pages and records the timeout warning. -/
theorem fetch_all_daily_budgets_witness :
    (fetch_all_daily envSlowClock {} "가나" 20 1 st0).pages ≤ 1 ∧
    (1 ≤ 1 →
      ({} : PipeConfig).search_budget_sec <
        envSlowClock.clock (st0.clkIdx + 1) - envSlowClock.clock st0.clkIdx →
      (fetch_all_daily envSlowClock {} "가나" 20 1 st0).pages = 0 ∧
      (fetch_all_daily envSlowClock {} "가나" 20 1 st0).st.warnings =
        st0.warnings ++
          ["daily search timeout for '" ++ "가나" ++ "' (>" ++
            toString ({} : PipeConfig).search_budget_sec ++ "s)"]) :=
  fetch_all_daily_budgets envSlowClock {} "가나" 20 1 st0

/-- C3, counterexample to the original claim: resolving the keyword "잠수"
searches the token plus its seven expansion terms.  Under the default
one-page budget the run makes eight remote search calls (`sIdx` counts
`fetch_daily_terms` calls; every call here returns `.ok`, i.e. eight pages
are fetched for one keyword), exceeding the configured page budget of one;
and with a clock that jumps beyond the six-second budget right after the
first term, the remaining seven terms are still searched with no timeout
warning — the deadline is restarted per term, not shared by the keyword. -/
theorem page_budget_claim_false :
    (run_pipeline_st envEmptyOk emptyCache {} "잠수" 8 3 5).2.sIdx = 8 ∧
    (run_pipeline_st envLateClock emptyCache {} "잠수" 8 3 5).2.sIdx = 8 ∧
    (run_pipeline_st envLateClock emptyCache {} "잠수" 8 3 5).2.warnings = [] ∧
    ({} : PipeConfig).max_daily_pages = 1 ∧
    ({} : PipeConfig).search_budget_sec = 6 ∧
    envLateClock.clock 2 - envLateClock.clock 0 = 1000 ∧
    (expand_related_terms "잠수").length = 7 := by
  refine ⟨by decide, by decide, by decide, by decide, by decide, by decide, by decide⟩

/-- C4: when the resolve-daily-to-legal call raises a transport error for a
newly seen everyday-term id, the item loop of `run_pipeline` appends that
candidate with an empty `legal_terms` list, appends a warning describing the
failure, and continues processing the remaining sibling items from the
post-error state; the exception is consumed on the spot (every pipeline
function of this embedding is total — nothing propagates to the caller of
`run_pipeline`). -/
theorem daily_to_legal_error_recovery (env : Env) (legal_per_daily : Nat)
    (tok : String) (it : DailyItem) (its : List DailyItem) (seen : List String)
    (cands : List DailyCandidate) (st : PipeState) (exc : String)
    (hid : it.id ≠ "") (hseen : it.id ∉ seen)
    (herr : env.fetch_daily_to_legal st.dIdx it.id = .error exc) :
    process_daily_items env legal_per_daily tok (it :: its) seen cands st =
      process_daily_items env legal_per_daily tok its (seen ++ [it.id])
        (cands ++ [⟨it.id, it.name, it.source, it.stem_relation_link, tok, []⟩])
        { st with dIdx := st.dIdx + 1,
                  warnings := st.warnings ++
                    ["daily->legal failed for '" ++ it.id ++ "': " ++ exc] } := by
  simp only [process_daily_items]
  rw [if_neg (by push_neg; exact ⟨hid, hseen⟩)]
  simp [resolve_daily_item, herr, resolve_legal_list]

/-- C4, witness: the recovery equation instantiated at a concrete failing
environment and item. -/
theorem daily_to_legal_error_recovery_witness :
    process_daily_items envResolveErr 5 "가나" [⟨"D1", "이름", "", ""⟩] [] [] st0 =
      process_daily_items envResolveErr 5 "가나" [] ([] ++ ["D1"])
        ([] ++ [⟨"D1", "이름", "", "", "가나", []⟩])
        { st0 with dIdx := st0.dIdx + 1,
                   warnings := st0.warnings ++
                     ["daily->legal failed for '" ++ "D1" ++ "': " ++ "boom"] } :=
  daily_to_legal_error_recovery envResolveErr 5 "가나" ⟨"D1", "이름", "", ""⟩ [] [] []
    st0 "boom" (by decide) (by decide) rfl

/-! ## Lemmas about summary picking -/

/-- C8 (amended): `_pick_summary` summarises the first content that is
non-blank after cleaning; the sentence cut uses the first delimiter in the
fixed priority order `". ", "。", "…", "!", "?"` that occurs anywhere in the
cleaned text (split at its first occurrence) — not the earliest-occurring
delimiter; the result is hard-truncated to the `limit` with an ellipsis
appended, and is empty when every content cleans to the empty string. -/
theorem pick_summary_spec (contents : List String) (limit : Int)
    (hl : 1 ≤ limit) :
    (strLen (pick_summary contents limit) : Int) ≤ limit ∧
    ((∀ c ∈ contents, clean_content c = "") → pick_summary contents limit = "") ∧
    (pick_summary contents limit = "" ∨
      ∃ c ∈ contents,
        pick_summary contents limit =
          if limit < (strLen (cut_content c) : Int) then
            String.mk (pySlice (cut_content c).data (limit - 1)) ++ "…"
          else cut_content c) := by
  induction contents with
  | nil =>
    refine ⟨?_, fun _ => rfl, Or.inl rfl⟩
    have : strLen (pick_summary [] limit) = 0 := rfl
    rw [this]
    omega
  | cons c cs ih =>
    by_cases hc : c = ""
    · rw [show pick_summary (c :: cs) limit = pick_summary cs limit from by
        simp [pick_summary, hc]]
      refine ⟨ih.1, fun h => ih.2.1 fun x hx => h x (List.mem_cons_of_mem _ hx), ?_⟩
      rcases ih.2.2 with h | ⟨c', hc', h⟩
      · exact Or.inl h
      · exact Or.inr ⟨c', List.mem_cons_of_mem _ hc', h⟩
    · by_cases hcc : clean_content c = ""
      · rw [show pick_summary (c :: cs) limit = pick_summary cs limit from by
          simp [pick_summary, hc, hcc]]
        refine ⟨ih.1, fun h => ih.2.1 fun x hx => h x (List.mem_cons_of_mem _ hx), ?_⟩
        rcases ih.2.2 with h | ⟨c', hc', h⟩
        · exact Or.inl h
        · exact Or.inr ⟨c', List.mem_cons_of_mem _ hc', h⟩
      · have hres : pick_summary (c :: cs) limit =
            if limit < (strLen (cut_content c) : Int) then
              String.mk (pySlice (cut_content c).data (limit - 1)) ++ "…"
            else cut_content c := by
          simp [pick_summary, hc, hcc, cut_content]
        refine ⟨?_, fun h => absurd (h c (List.mem_cons_self _ _)) hcc,
          Or.inr ⟨c, List.mem_cons_self _ _, hres⟩⟩
        rw [hres]
        by_cases hlim : limit < (strLen (cut_content c) : Int)
        · rw [if_pos hlim]
          have hdata : strLen (String.mk (pySlice (cut_content c).data (limit - 1)) ++ "…") =
              (pySlice (cut_content c).data (limit - 1)).length + 1 := by
            simp [strLen, String.data_append]
          rw [hdata]
          have h0 : 0 ≤ limit - 1 := by omega
          have : (pySlice (cut_content c).data (limit - 1)).length ≤ (limit - 1).toNat := by
            simp [pySlice, h0]
          omega
        · rw [if_neg hlim]
          omega

/-- C8, witness: the amended theorem instantiated at a concrete content. -/
theorem pick_summary_spec_witness :
    (strLen (pick_summary ["가! 나. 다"] 160) : Int) ≤ 160 ∧
    ((∀ c ∈ ["가! 나. 다"], clean_content c = "") → pick_summary ["가! 나. 다"] 160 = "") ∧
    (pick_summary ["가! 나. 다"] 160 = "" ∨
      ∃ c ∈ ["가! 나. 다"],
        pick_summary ["가! 나. 다"] 160 =
          if (160 : Int) < (strLen (cut_content c) : Int) then
            String.mk (pySlice (cut_content c).data (160 - 1)) ++ "…"
          else cut_content c) :=
  pick_summary_spec ["가! 나. 다"] 160 (by decide)

/-- C8, counterexample to the original claim: in "가! 나. 다" the earliest
sentence-ending delimiter is "!" (index 1), before ". " (index 4); the
claimed earliest-delimiter cut would yield "가", but the code tries the
delimiters in tuple priority order and ". " wins, yielding "가! 나". -/
theorem earliest_delimiter_claim_false :
    pick_summary ["가! 나. 다"] 160 = "가! 나" ∧
    findSubIdx "!".data "가! 나. 다".data = some 1 ∧
    findSubIdx ". ".data "가! 나. 다".data = some 4 ∧
    pick_summary ["가! 나. 다"] 160 ≠ "가" := by
  refine ⟨by decide, by decide, by decide, by decide⟩


/-! ## Structural invariants of the candidate accumulation -/

theorem resolve_legal_list_len (env : Env) :
    ∀ (ls : List LegalTerm) (st : PipeState),
      (resolve_legal_list env ls st).1.length ≤ ls.length := by
  intro ls
  induction ls with
  | nil =>
    intro st
    simp [resolve_legal_list]
  | cons l ls ih =>
    intro st
    simp only [resolve_legal_list]
    split
    · exact Nat.le_succ_of_le (ih st)
    · simpa using Nat.succ_le_succ (ih _)

theorem resolve_legal_one_shape (env : Env) (l : LegalTerm) (st : PipeState) :
    (resolve_legal_one env l st).1.articles.isSome := by
  simp only [resolve_legal_one]
  split <;> rfl

theorem resolve_legal_list_shape (env : Env) :
    ∀ (ls : List LegalTerm) (st : PipeState),
      ∀ lc ∈ (resolve_legal_list env ls st).1, lc.articles.isSome := by
  intro ls
  induction ls with
  | nil =>
    intro st lc hlc
    simp [resolve_legal_list] at hlc
  | cons l ls ih =>
    intro st lc hlc
    simp only [resolve_legal_list] at hlc
    split at hlc
    · exact ih st lc hlc
    · rcases List.mem_cons.mp hlc with rfl | h'
      · exact resolve_legal_one_shape env l st
      · exact ih _ lc h'

theorem resolve_daily_item_spec (env : Env) (lpd : Nat) (tok : String)
    (it : DailyItem) (st : PipeState) :
    (resolve_daily_item env lpd tok it st).1.id = it.id ∧
    (resolve_daily_item env lpd tok it st).1.keyword = tok ∧
    (resolve_daily_item env lpd tok it st).1.legal_terms.length ≤ lpd ∧
    (∀ lc ∈ (resolve_daily_item env lpd tok it st).1.legal_terms,
      lc.articles.isSome) := by
  simp only [resolve_daily_item]
  split
  · refine ⟨rfl, rfl, ?_, ?_⟩
    · exact le_trans (resolve_legal_list_len env _ _) (List.length_take_le _ _)
    · exact resolve_legal_list_shape env _ _
  · refine ⟨rfl, rfl, ?_, ?_⟩
    · exact le_trans (resolve_legal_list_len env _ _) (List.length_take_le _ _)
    · exact resolve_legal_list_shape env _ _

theorem process_daily_items_spec (env : Env) (lpd : Nat) (tok : String) :
    ∀ (its : List DailyItem) (seen : List String) (cands : List DailyCandidate)
      (st : PipeState),
      ∃ new st',
        process_daily_items env lpd tok its seen cands st =
          (seen ++ new.map (·.id), cands ++ new, st') ∧
        (∀ c ∈ new, c.id ≠ "" ∧ c.id ∉ seen ∧ c.legal_terms.length ≤ lpd ∧
          c.keyword = tok ∧ (∀ lc ∈ c.legal_terms, lc.articles.isSome)) ∧
        (seen.Nodup → (seen ++ new.map (·.id)).Nodup) := by
  intro its
  induction its with
  | nil =>
    intro seen cands st
    exact ⟨[], st, by simp [process_daily_items], by simp, fun h => by simpa⟩
  | cons it its ih =>
    intro seen cands st
    simp only [process_daily_items]
    split
    · exact ih seen cands st
    · next hskip =>
      push_neg at hskip
      obtain ⟨hid, hseen⟩ := hskip
      obtain ⟨hcid, hckw, hclen, hcshape⟩ := resolve_daily_item_spec env lpd tok it st
      obtain ⟨new', st', heq, hprop, hnd⟩ := ih (seen ++ [it.id])
        (cands ++ [(resolve_daily_item env lpd tok it st).1])
        (resolve_daily_item env lpd tok it st).2
      refine ⟨(resolve_daily_item env lpd tok it st).1 :: new', st', ?_, ?_, ?_⟩
      · rw [heq]
        simp [hcid, List.append_assoc]
      · intro c hc
        rcases List.mem_cons.mp hc with rfl | hc'
        · exact ⟨by rw [hcid]; exact hid, by rw [hcid]; exact hseen, hclen, hckw, hcshape⟩
        · obtain ⟨h1, h2, h3, h4, h5⟩ := hprop c hc'
          exact ⟨h1, fun hmem => h2 (List.mem_append_left _ hmem), h3, h4, h5⟩
      · intro hs
        have hs' : (seen ++ [it.id]).Nodup := by
          rw [List.nodup_append]
          exact ⟨hs, List.nodup_singleton _,
            fun a ha hab => hseen (List.mem_singleton.mp hab ▸ ha)⟩
        have := hnd hs'
        simpa [hcid, List.append_assoc] using this

theorem process_terms_spec (env : Env) (cfg : PipeConfig) (lpd pp : Nat)
    (tok : String) :
    ∀ (terms seen : List String) (cands : List DailyCandidate) (st : PipeState),
      ∃ new st',
        process_terms env cfg lpd pp tok terms seen cands st =
          (seen ++ new.map (·.id), cands ++ new, st') ∧
        (∀ c ∈ new, c.id ≠ "" ∧ c.id ∉ seen ∧ c.legal_terms.length ≤ lpd ∧
          c.keyword = tok ∧ (∀ lc ∈ c.legal_terms, lc.articles.isSome)) ∧
        (seen.Nodup → (seen ++ new.map (·.id)).Nodup) := by
  intro terms
  induction terms with
  | nil =>
    intro seen cands st
    exact ⟨[], st, by simp [process_terms], by simp, fun h => by simpa⟩
  | cons term terms ih =>
    intro seen cands st
    simp only [process_terms]
    obtain ⟨new1, st1, heq1, hprop1, hnd1⟩ :=
      process_daily_items_spec env lpd tok
        (fetch_all_daily env cfg term pp cfg.max_daily_pages st).items seen cands
        (fetch_all_daily env cfg term pp cfg.max_daily_pages st).st
    rw [heq1]
    obtain ⟨new2, st2, heq2, hprop2, hnd2⟩ :=
      ih (seen ++ new1.map (·.id)) (cands ++ new1) st1
    refine ⟨new1 ++ new2, st2, ?_, ?_, ?_⟩
    · rw [heq2]
      simp [List.map_append, List.append_assoc]
    · intro c hc
      rcases List.mem_append.mp hc with hc' | hc'
      · exact hprop1 c hc'
      · obtain ⟨h1, h2, h3, h4, h5⟩ := hprop2 c hc'
        exact ⟨h1, fun hmem => h2 (List.mem_append_left _ hmem), h3, h4, h5⟩
    · intro hs
      have := hnd2 (hnd1 hs)
      simpa [List.map_append, List.append_assoc] using this

theorem seed_cache_spec :
    ∀ (its : List DailyCandidate) (seen : List String) (cands : List DailyCandidate),
      ∃ new,
        seed_cache its seen cands = (seen ++ new.map (·.id), cands ++ new) ∧
        (∀ c ∈ new, c.id ≠ "" ∧ c.id ∉ seen ∧ c ∈ its) ∧
        (seen.Nodup → (seen ++ new.map (·.id)).Nodup) := by
  intro its
  induction its with
  | nil =>
    intro seen cands
    exact ⟨[], by simp [seed_cache], by simp, fun h => by simpa⟩
  | cons it its ih =>
    intro seen cands
    simp only [seed_cache]
    split
    · next hacc =>
      obtain ⟨new', heq, hprop, hnd⟩ := ih (seen ++ [it.id]) (cands ++ [it])
      refine ⟨it :: new', ?_, ?_, ?_⟩
      · rw [heq]
        simp [List.append_assoc]
      · intro c hc
        rcases List.mem_cons.mp hc with rfl | hc'
        · exact ⟨hacc.1, hacc.2, List.mem_cons_self _ _⟩
        · obtain ⟨h1, h2, h3⟩ := hprop c hc'
          exact ⟨h1, fun hmem => h2 (List.mem_append_left _ hmem),
            List.mem_cons_of_mem _ h3⟩
      · intro hs
        have hs' : (seen ++ [it.id]).Nodup := by
          rw [List.nodup_append]
          exact ⟨hs, List.nodup_singleton _,
            fun a ha hab => hacc.2 (List.mem_singleton.mp hab ▸ ha)⟩
        have := hnd hs'
        simpa [List.append_assoc] using this
    · obtain ⟨new, heq, hprop, hnd⟩ := ih seen cands
      refine ⟨new, heq, ?_, hnd⟩
      intro c hc
      obtain ⟨h1, h2, h3⟩ := hprop c hc
      exact ⟨h1, h2, List.mem_cons_of_mem _ h3⟩

theorem process_token_spec (env : Env) (cache : CacheData) (cfg : PipeConfig)
    (dpk lpd : Nat) (tok : String) (st : PipeState) :
    (process_token env cache cfg dpk lpd tok st).1.token = tok ∧
    ((process_token env cache cfg dpk lpd tok st).1.daily_terms.map (·.id)).Nodup ∧
    (∀ c ∈ (process_token env cache cfg dpk lpd tok st).1.daily_terms, c.id ≠ "") ∧
    ∃ pre post,
      (process_token env cache cfg dpk lpd tok st).1.daily_terms = pre ++ post ∧
      (∀ c ∈ pre, c ∈ local_daily_candidates cache tok (dpk * 2) 50) ∧
      (∀ c ∈ post, c.legal_terms.length ≤ lpd ∧ c.keyword = tok ∧
        ∀ lc ∈ c.legal_terms, lc.articles.isSome) := by
  obtain ⟨new0, heq0, hprop0, hnd0⟩ :=
    seed_cache_spec (local_daily_candidates cache tok (dpk * 2) 50) [] []
  obtain ⟨new1, st1, heq1, hprop1, hnd1⟩ :=
    process_terms_spec env cfg lpd (max 20 dpk) tok (tok :: expand_related_terms tok)
      ([] ++ new0.map (·.id)) ([] ++ new0) st
  have hterms : (process_token env cache cfg dpk lpd tok st).1.daily_terms =
      new0 ++ new1 := by
    simp only [process_token, heq0, heq1]
    simp
  refine ⟨rfl, ?_, ?_, new0, new1, hterms, ?_, ?_⟩
  · rw [hterms]
    have := hnd1 (hnd0 List.nodup_nil)
    simpa [List.map_append] using this
  · intro c hc
    rw [hterms] at hc
    rcases List.mem_append.mp hc with hc' | hc'
    · exact (hprop0 c hc').1
    · exact (hprop1 c hc').1
  · intro c hc
    exact (hprop0 c hc).2.2
  · intro c hc
    obtain ⟨h1, h2, h3, h4, h5⟩ := hprop1 c hc
    exact ⟨h3, h4, h5⟩

theorem run_tokens_spec (env : Env) (cache : CacheData) (cfg : PipeConfig)
    (dpk lpd : Nat) :
    ∀ (ts : List String) (st : PipeState),
      (run_tokens env cache cfg dpk lpd ts st).1.map (·.token) = ts ∧
      ∀ b ∈ (run_tokens env cache cfg dpk lpd ts st).1,
        (b.daily_terms.map (·.id)).Nodup ∧
        (∀ c ∈ b.daily_terms, c.id ≠ "") ∧
        ∃ pre post, b.daily_terms = pre ++ post ∧
          (∀ c ∈ pre, c ∈ local_daily_candidates cache b.token (dpk * 2) 50) ∧
          (∀ c ∈ post, c.legal_terms.length ≤ lpd ∧ c.keyword = b.token ∧
            ∀ lc ∈ c.legal_terms, lc.articles.isSome) := by
  intro ts
  induction ts with
  | nil =>
    intro st
    refine ⟨by simp [run_tokens], ?_⟩
    intro b hb
    simp [run_tokens] at hb
  | cons t ts ih =>
    intro st
    simp only [run_tokens]
    obtain ⟨htok, hnd, hids, pre, post, hsplit, hpre, hpost⟩ :=
      process_token_spec env cache cfg dpk lpd t st
    constructor
    · simp only [List.map_cons, htok]
      rw [(ih _).1]
    · intro b hb
      rcases List.mem_cons.mp hb with rfl | hb'
      · refine ⟨hnd, hids, pre, post, hsplit, ?_, ?_⟩
        · intro c hc
          rw [htok]
          exact hpre c hc
        · intro c hc
          obtain ⟨h1, h2, h3⟩ := hpost c hc
          exact ⟨h1, by rw [htok]; exact h2, h3⟩
      · exact (ih _).2 b hb'

theorem get_eq_of_map_token {bs : List KeywordBundle} {ks : List String}
    (h : bs.map (·.token) = ks) (i : Nat) (h1 : i < bs.length)
    (h2 : i < ks.length) :
    (bs.get ⟨i, h1⟩).token = ks.get ⟨i, h2⟩ := by
  subst h
  simp

/-- C10: the dict returned by `run_pipeline` has exactly the keys `tokens`,
`keywords` and `warnings` (the `Bundle` record of this embedding); the
`keywords` entry is the extracted keyword list, the `tokens` entry has one
bundle per keyword, and the i-th bundle's `token` field equals the i-th
keyword. -/
theorem run_pipeline_result_shape (env : Env) (cache : CacheData)
    (cfg : PipeConfig) (text : String) (top_k dpk lpd : Nat) :
    (run_pipeline env cache cfg text top_k dpk lpd).keywords =
      extract_keywords text top_k [] false ∧
    (run_pipeline env cache cfg text top_k dpk lpd).tokens.map (·.token) =
      (run_pipeline env cache cfg text top_k dpk lpd).keywords ∧
    (run_pipeline env cache cfg text top_k dpk lpd).tokens.length =
      (run_pipeline env cache cfg text top_k dpk lpd).keywords.length ∧
    ∀ (i : Nat) (h1 : i < (run_pipeline env cache cfg text top_k dpk lpd).tokens.length)
      (h2 : i < (run_pipeline env cache cfg text top_k dpk lpd).keywords.length),
      ((run_pipeline env cache cfg text top_k dpk lpd).tokens.get ⟨i, h1⟩).token =
        (run_pipeline env cache cfg text top_k dpk lpd).keywords.get ⟨i, h2⟩ := by
  have hmap : (run_pipeline env cache cfg text top_k dpk lpd).tokens.map (·.token) =
      (run_pipeline env cache cfg text top_k dpk lpd).keywords := by
    simp only [run_pipeline, run_pipeline_st]
    exact (run_tokens_spec env cache cfg dpk lpd _ _).1
  refine ⟨rfl, hmap, ?_, fun i h1 h2 => get_eq_of_map_token hmap i h1 h2⟩
  rw [← hmap]
  simp

/-- C10, witness: the shape theorem applied at index 0 of a one-keyword run. -/
theorem run_pipeline_result_shape_witness :
    ((run_pipeline envEmptyOk emptyCache {} "가나" 8 3 5).tokens.get
        ⟨0, by decide⟩).token =
      (run_pipeline envEmptyOk emptyCache {} "가나" 8 3 5).keywords.get
        ⟨0, by decide⟩ :=
  (run_pipeline_result_shape envEmptyOk emptyCache {} "가나" 8 3 5).2.2.2 0
    (by decide) (by decide)

/-- C5: keyword bundles appear in extraction order; within one keyword the
everyday-term ids are pairwise distinct, so a remote search result whose id
was already produced from the cache is never added again; and every bundle's
candidate list is a block of cache-produced candidates followed by the
remote-resolved rest (cache precedes remote). -/
theorem run_pipeline_ordering (env : Env) (cache : CacheData) (cfg : PipeConfig)
    (text : String) (top_k dpk lpd : Nat) :
    (run_pipeline env cache cfg text top_k dpk lpd).tokens.map (·.token) =
      (run_pipeline env cache cfg text top_k dpk lpd).keywords ∧
    ∀ b ∈ (run_pipeline env cache cfg text top_k dpk lpd).tokens,
      (b.daily_terms.map (·.id)).Nodup ∧
      ∃ pre post, b.daily_terms = pre ++ post ∧
        (∀ c ∈ pre, c ∈ local_daily_candidates cache b.token (dpk * 2) 50) ∧
        (∀ c ∈ post, c.keyword = b.token ∧
          ∀ lc ∈ c.legal_terms, lc.articles.isSome) := by
  constructor
  · simp only [run_pipeline, run_pipeline_st]
    exact (run_tokens_spec env cache cfg dpk lpd _ _).1
  · intro b hb
    have hb' : b ∈ (run_tokens env cache cfg dpk lpd
        (extract_keywords text top_k [] false) st0).1 := hb
    obtain ⟨hnd, hids, pre, post, hsplit, hpre, hpost⟩ :=
      (run_tokens_spec env cache cfg dpk lpd _ _).2 b hb'
    refine ⟨hnd, pre, post, hsplit, hpre, ?_⟩
    intro c hc
    obtain ⟨h1, h2, h3⟩ := hpost c hc
    exact ⟨h2, h3⟩

/-- C5, witness: the ordering theorem's per-bundle part at a concrete run
whose single bundle holds one cache-sourced candidate. -/
theorem run_pipeline_ordering_witness :
    (bundleGana.daily_terms.map (·.id)).Nodup ∧
    ∃ pre post, bundleGana.daily_terms = pre ++ post ∧
      (∀ c ∈ pre, c ∈ local_daily_candidates cacheTwoLegal bundleGana.token
        (1 * 2) 50) ∧
      (∀ c ∈ post, c.keyword = bundleGana.token ∧
        ∀ lc ∈ c.legal_terms, lc.articles.isSome) :=
  (run_pipeline_ordering envEmptyOk cacheTwoLegal {} "가나" 8 1 1).2 bundleGana
    (by decide)

/-- C2 (amended): every candidate in the bundle either was produced by the
local cache lookup — whose accumulated legal-term links are NOT bounded by
`legal_per_daily` (see the counterexample) — or is remote-resolved with at
most `legal_per_daily` legal-term links. -/
theorem legal_per_daily_bound (env : Env) (cache : CacheData) (cfg : PipeConfig)
    (text : String) (top_k dpk lpd : Nat) :
    ∀ b ∈ (run_pipeline env cache cfg text top_k dpk lpd).tokens,
      ∀ c ∈ b.daily_terms,
        c ∈ local_daily_candidates cache b.token (dpk * 2) 50 ∨
        c.legal_terms.length ≤ lpd := by
  intro b hb c hc
  obtain ⟨hnd, hids, pre, post, hsplit, hpre, hpost⟩ :=
    (run_tokens_spec env cache cfg dpk lpd _ _).2 b hb
  rw [hsplit] at hc
  rcases List.mem_append.mp hc with hc' | hc'
  · exact Or.inl (hpre c hc')
  · exact Or.inr (hpost c hc').1

/-- C2, witness: the bound applied to the cache-sourced candidate of a
concrete run (the left disjunct holds there). -/
theorem legal_per_daily_bound_witness :
    candD1 ∈ local_daily_candidates cacheTwoLegal bundleGana.token (1 * 2) 50 ∨
    candD1.legal_terms.length ≤ 1 :=
  legal_per_daily_bound envEmptyOk cacheTwoLegal {} "가나" 8 1 1 bundleGana
    (by decide) candD1 (by decide)

/-- C2, counterexample to the original claim: with `legal_per_daily = 1`, a
cache where two matching legal terms link the same everyday term yields a
cache-sourced candidate carrying two legal-term links in the bundle. -/
theorem legal_per_daily_claim_false :
    (run_pipeline envEmptyOk cacheTwoLegal {} "가나" 8 1 1).tokens.map
      (fun b => b.daily_terms.map (fun c => c.legal_terms.length)) = [[2]] ∧
    ¬ (2 ≤ 1) := by
  refine ⟨by decide, by decide⟩

/-- C9 (amended): every candidate in the bundle carries a nonempty identity.
Cache records with an absent everyday-term id fall back to the display name
as identity and are kept (second conjunct: the spec's "보험금"/"보험탄 돈"
scenario, where the relation row has no id), whereas remote search records
with an absent id are discarded rather than falling back to the name (see
the counterexample). -/
theorem candidate_identity (env : Env) (cache : CacheData) (cfg : PipeConfig)
    (text : String) (top_k dpk lpd : Nat) :
    (∀ b ∈ (run_pipeline env cache cfg text top_k dpk lpd).tokens,
      ∀ c ∈ b.daily_terms, c.id ≠ "") ∧
    local_daily_candidates cacheNoDailyId "보험" 30 50 =
      [⟨"보험탄 돈", "보험탄 돈", "cache:lstrmRlt", "", "보험",
        [⟨"L1", "보험금", "", "", "", none, none, none⟩]⟩] := by
  constructor
  · intro b hb c hc
    obtain ⟨hnd, hids, rest⟩ := (run_tokens_spec env cache cfg dpk lpd _ _).2 b hb
    exact hids c hc
  · decide

/-- C9, witness: the identity theorem applied to the cache-sourced candidate
of a concrete run. -/
theorem candidate_identity_witness : candD1.id ≠ "" :=
  (candidate_identity envEmptyOk cacheTwoLegal {} "가나" 8 1 1).1 bundleGana
    (by decide) candD1 (by decide)

/-- C9, counterexample to the original claim: a remote search record whose
id is absent (name "무명") is discarded — the keyword's candidate list stays
empty instead of keying the record by its display name. -/
theorem remote_name_fallback_claim_false :
    (run_pipeline envNoId emptyCache {} "가나" 8 3 5).tokens = [⟨"가나", []⟩] ∧
    envNoId.fetch_daily_terms 0 "가나" 1 20 = .ok ⟨0, [⟨"", "무명", "", ""⟩]⟩ := by
  refine ⟨by decide, rfl⟩

end LT
